import Mathlib

/-!
Verification of the PBX-DS-OCR-server scheduling core.

Shallow embedding of the Python sources under app/: the page-range parser
(services/dsocr_model.py), the document pipeline (services/pipeline.py),
the job queue (services/queue.py), the resource manager
(services/model_manager.py), the token store (security/tokens.py) and the
rate limiter (security/rate_limit.py).

Python strings are modelled as their character lists (List Char); Python
ints as Lean integers; Python floats (timestamps and memory sizes in GB)
as rationals.
-/

namespace PBX

/-! ### Python string builtins used by the parser -/

/-- Python whitespace characters recognised by str.strip (ASCII range). -/
def pyIsSpace (c : Char) : Bool :=
  c = ' ' || c = '\t' || c = '\n' || c = '\x0d' || c = '\x0b' || c = '\x0c'

/-- Python str.split(sep) for a one-character separator: split at every
occurrence of sep, keeping empty fragments (so the split of an empty
string is a list holding one empty string). -/
def pySplit (sep : Char) : List Char → List (List Char)
  | [] => [[]]
  | c :: cs =>
    match pySplit sep cs with
    | [] => [[]]
    | cur :: rest => if c = sep then [] :: cur :: rest else (c :: cur) :: rest

/-- Python str.strip(): drop leading and trailing whitespace. -/
def pyStrip (l : List Char) : List Char :=
  ((l.dropWhile pyIsSpace).reverse.dropWhile pyIsSpace).reverse

/-- Numeric value of an ASCII digit character. -/
def digitVal (c : Char) : ℕ := c.toNat - 48

/-- Parse a run of ASCII decimal digits (the part of a Python int literal
after the optional sign). -/
def pyDigits? (ds : List Char) : Option ℕ :=
  if ds ≠ [] ∧ ds.all Char.isDigit then
    some (ds.foldl (fun a c => 10 * a + digitVal c) 0)
  else none

/-- Python int(s) on a string: strip whitespace, optional single sign,
then a nonempty run of decimal digits; anything else raises ValueError,
modelled as none.  (Digit-grouping underscores and non-ASCII digits are
not modelled; every string the repository feeds to int() is ASCII.) -/
def pyInt? (l : List Char) : Option ℤ :=
  match pyStrip l with
  | [] => none
  | c :: rest =>
    if c = '-' then (pyDigits? rest).map (fun v => -(v : ℤ))
    else if c = '+' then (pyDigits? rest).map (fun v => (v : ℤ))
    else (pyDigits? (c :: rest)).map (fun v => (v : ℤ))

/-! ### app/services/dsocr_model.py : _parse_page_ranges (lines 64-99) -/

/-- The clamp max(1, min(total_pages, int(x))) applied to every parsed
endpoint (dsocr_model.py lines 78-79 and 88).  The result is at least 1,
so it is returned as a natural number. -/
def clampPage (total : ℕ) (x : ℤ) : ℕ :=
  (max 1 (min (total : ℤ) x)).toNat

/-- One fragment containing a dash: a, b = part.split("-", 1); both
endpoints are parsed, clamped, and a reversed range is normalised
(dsocr_model.py lines 75-84).  int() failure skips the fragment. -/
def rangeFrag (total : ℕ) (part : List Char) : List ℕ :=
  let a := part.takeWhile (fun c => c ≠ '-')
  let b := (part.dropWhile (fun c => c ≠ '-')).tail
  match pyInt? a, pyInt? b with
  | some ia, some ib =>
    let s := clampPage total ia
    let e := clampPage total ib
    if s ≤ e then List.range' s (e + 1 - s) else List.range' e (s + 1 - e)
  | _, _ => []

/-- One dashless fragment: a single page index, parsed and clamped
(dsocr_model.py lines 86-91). -/
def singleFrag (total : ℕ) (part : List Char) : List ℕ :=
  match pyInt? part with
  | some i => [clampPage total i]
  | none => []

/-- The pages list accumulated by the fragment loop of _parse_page_ranges
before de-duplication (dsocr_model.py lines 70-91). -/
def rawPages (total : ℕ) (spec : List Char) : List ℕ :=
  ((pySplit ',' spec).map (fun part0 =>
    let part := pyStrip part0
    if part = [] then []
    else if '-' ∈ part then rangeFrag total part
    else singleFrag total part)).flatten

/-- The seen-set loop of _parse_page_ranges (dsocr_model.py lines 92-98):
drop duplicates, keeping the first occurrence of each page. -/
def dedupKeepFirst (seen : List ℕ) : List ℕ → List ℕ
  | [] => []
  | p :: ps =>
    if p ∈ seen then dedupKeepFirst seen ps
    else p :: dedupKeepFirst (p :: seen) ps

/-- _parse_page_ranges(spec, total_pages) (dsocr_model.py lines 64-99).
A missing or empty spec (Python: if not spec) and an empty parsed list
both fall back to the full range 1..total_pages. -/
def parsePageRanges (spec : Option (List Char)) (total : ℕ) : List ℕ :=
  match spec with
  | none => List.range' 1 total
  | some s =>
    if s = [] then List.range' 1 total
    else
      let out := dedupKeepFirst [] (rawPages total s)
      if out = [] then List.range' 1 total else out

/-! ### Parser lemmas -/

theorem clampPage_bounds (total : ℕ) (x : ℤ) (h : 1 ≤ total) :
    1 ≤ clampPage total x ∧ clampPage total x ≤ total := by
  unfold clampPage
  omega

theorem mem_rangeFrag_bounds (total : ℕ) (part : List Char) (h : 1 ≤ total) :
    ∀ p ∈ rangeFrag total part, 1 ≤ p ∧ p ≤ total := by
  intro p hp
  unfold rangeFrag at hp
  rcases ha : pyInt? (part.takeWhile (fun c => c ≠ '-')) with _ | ia <;>
    rcases hb : pyInt? ((part.dropWhile (fun c => c ≠ '-')).tail) with _ | ib <;>
    simp only [ha, hb] at hp
  · cases hp
  · cases hp
  · cases hp
  · obtain ⟨h1a, h2a⟩ := clampPage_bounds total ia h
    obtain ⟨h1b, h2b⟩ := clampPage_bounds total ib h
    by_cases hle : clampPage total ia ≤ clampPage total ib
    · rw [if_pos hle] at hp
      rw [List.mem_range'_1] at hp
      omega
    · rw [if_neg hle] at hp
      rw [List.mem_range'_1] at hp
      omega

theorem mem_singleFrag_bounds (total : ℕ) (part : List Char) (h : 1 ≤ total) :
    ∀ p ∈ singleFrag total part, 1 ≤ p ∧ p ≤ total := by
  intro p hp
  unfold singleFrag at hp
  rcases hi : pyInt? part with _ | i <;> simp only [hi] at hp
  · cases hp
  · rw [List.mem_singleton] at hp
    subst hp
    exact clampPage_bounds total i h

theorem mem_rawPages_bounds (total : ℕ) (s : List Char) (h : 1 ≤ total) :
    ∀ p ∈ rawPages total s, 1 ≤ p ∧ p ≤ total := by
  intro p hp
  unfold rawPages at hp
  rw [List.mem_flatten] at hp
  obtain ⟨frag, hfrag, hpf⟩ := hp
  rw [List.mem_map] at hfrag
  obtain ⟨part0, _, hdef⟩ := hfrag
  subst hdef
  dsimp only at hpf
  by_cases h0 : pyStrip part0 = []
  · rw [if_pos h0] at hpf; cases hpf
  · rw [if_neg h0] at hpf
    by_cases hdash : '-' ∈ pyStrip part0
    · rw [if_pos hdash] at hpf
      exact mem_rangeFrag_bounds total _ h p hpf
    · rw [if_neg hdash] at hpf
      exact mem_singleFrag_bounds total _ h p hpf

theorem mem_dedupKeepFirst (x : ℕ) :
    ∀ (seen l : List ℕ), x ∈ dedupKeepFirst seen l ↔ x ∈ l ∧ x ∉ seen := by
  intro seen l
  induction l generalizing seen with
  | nil => simp [dedupKeepFirst]
  | cons p ps ih =>
    unfold dedupKeepFirst
    by_cases hseen : p ∈ seen
    · rw [if_pos hseen, ih]
      constructor
      · rintro ⟨h1, h2⟩
        exact ⟨List.mem_cons_of_mem _ h1, h2⟩
      · rintro ⟨h1, h2⟩
        rcases List.mem_cons.mp h1 with h | h
        · subst h; exact absurd hseen h2
        · exact ⟨h, h2⟩
    · rw [if_neg hseen]
      rw [List.mem_cons, ih, List.mem_cons, List.mem_cons]
      constructor
      · rintro (h | ⟨h1, h2⟩)
        · subst h; exact ⟨Or.inl rfl, hseen⟩
        · exact ⟨Or.inr h1, fun hc => h2 (Or.inr hc)⟩
      · rintro ⟨h1 | h1, h2⟩
        · exact Or.inl h1
        · by_cases hxp : x = p
          · exact Or.inl hxp
          · refine Or.inr ⟨h1, fun hc => ?_⟩
            rcases hc with hh | hh
            · exact hxp hh
            · exact h2 hh

theorem dedupKeepFirst_sublist : ∀ (seen l : List ℕ), List.Sublist (dedupKeepFirst seen l) l := by
  intro seen l
  induction l generalizing seen with
  | nil => simp [dedupKeepFirst]
  | cons p ps ih =>
    unfold dedupKeepFirst
    by_cases hseen : p ∈ seen
    · rw [if_pos hseen]
      exact (ih seen).cons p
    · rw [if_neg hseen]
      exact (ih (p :: seen)).cons₂ p

theorem dedupKeepFirst_nodup : ∀ (seen l : List ℕ), (dedupKeepFirst seen l).Nodup := by
  intro seen l
  induction l generalizing seen with
  | nil => simp [dedupKeepFirst]
  | cons p ps ih =>
    unfold dedupKeepFirst
    by_cases hseen : p ∈ seen
    · rw [if_pos hseen]
      exact ih seen
    · rw [if_neg hseen]
      refine List.nodup_cons.mpr ⟨fun hc => ?_, ih (p :: seen)⟩
      rw [mem_dedupKeepFirst] at hc
      exact hc.2 (List.mem_cons_self p seen)

/-- C10: the page-range parser returns 1-based indices inside
[1, total_pages], duplicate-free in first-occurrence order (it is a
sublist of the pre-deduplication fragment expansion with the same
members), never empty, and falls back to the full range 1..total_pages
whenever the specification is missing, empty, or expands to no valid
page. -/
theorem parse_page_ranges_correct (spec : Option (List Char)) (total : ℕ) (h : 1 ≤ total) :
    (∀ p ∈ parsePageRanges spec total, 1 ≤ p ∧ p ≤ total) ∧
    (parsePageRanges spec total).Nodup ∧
    parsePageRanges spec total ≠ [] ∧
    (∀ s, spec = some s → rawPages total s ≠ [] →
      parsePageRanges spec total = dedupKeepFirst [] (rawPages total s) ∧
      List.Sublist (parsePageRanges spec total) (rawPages total s) ∧
      ∀ p, p ∈ parsePageRanges spec total ↔ p ∈ rawPages total s) ∧
    ((spec = none ∨ (∃ s, spec = some s ∧ rawPages total s = [])) →
      parsePageRanges spec total = List.range' 1 total) := by
  have hfullmem : ∀ p ∈ List.range' 1 total, 1 ≤ p ∧ p ≤ total := by
    intro p hp
    rw [List.mem_range'_1] at hp
    omega
  have hfullnodup : (List.range' 1 total).Nodup := List.nodup_range' 1 total
  have hfullne : List.range' 1 total ≠ [] := by
    simp only [ne_eq, List.range'_eq_nil]
    omega
  have hdedup_ne : ∀ s : List Char, rawPages total s ≠ [] →
      dedupKeepFirst [] (rawPages total s) ≠ [] := by
    intro s hne hc
    rcases hl : rawPages total s with _ | ⟨p, ps⟩
    · exact hne hl
    · have : p ∈ dedupKeepFirst ([] : List ℕ) (rawPages total s) := by
        rw [mem_dedupKeepFirst]
        exact ⟨hl ▸ List.mem_cons_self p ps, List.not_mem_nil p⟩
      rw [hc] at this
      exact List.not_mem_nil p this
  rcases spec with _ | s
  · refine ⟨hfullmem, hfullnodup, hfullne, ?_, fun _ => rfl⟩
    intro s hs
    cases hs
  · by_cases hs0 : s = []
    · subst hs0
      have hraw : rawPages total [] = [] := by rfl
      refine ⟨?_, ?_, ?_, ?_, fun _ => ?_⟩ <;>
        simp only [parsePageRanges, if_pos rfl]
      · exact hfullmem
      · exact hfullnodup
      · exact hfullne
      · intro s' hs' hne
        injection hs' with hss
        rw [← hss] at hne
        exact absurd hraw hne
      · rfl
    · by_cases hraw : rawPages total s = []
      · have hout : dedupKeepFirst [] (rawPages total s) = [] := by
          rw [hraw]; rfl
        have hparse : parsePageRanges (some s) total = List.range' 1 total := by
          simp [parsePageRanges, hs0, hout]
        refine ⟨hparse ▸ hfullmem, hparse ▸ hfullnodup, hparse ▸ hfullne, ?_, fun _ => hparse⟩
        intro s' hs' hne
        injection hs' with hss
        rw [← hss] at hne
        exact absurd hraw hne
      · have hout := hdedup_ne s hraw
        have hparse : parsePageRanges (some s) total = dedupKeepFirst [] (rawPages total s) := by
          simp only [parsePageRanges, if_neg hs0, if_neg hout]
        have hmem : ∀ p, p ∈ parsePageRanges (some s) total ↔ p ∈ rawPages total s := by
          intro p
          rw [hparse, mem_dedupKeepFirst]
          simp
        refine ⟨?_, ?_, ?_, ?_, ?_⟩
        · intro p hp
          exact mem_rawPages_bounds total s h p ((hmem p).mp hp)
        · rw [hparse]; exact dedupKeepFirst_nodup [] _
        · rw [hparse]; exact hout
        · intro s' hs' _
          injection hs' with hss
          subst hss
          exact ⟨hparse, hparse ▸ dedupKeepFirst_sublist [] _, hmem⟩
        · rintro (hc | ⟨s', hs', hc⟩)
          · cases hc
          · injection hs' with hss
            rw [← hss] at hc
            exact absurd hc hraw

/-- Witness for C10 at a concrete input: spec "2-1,5,x,12" with 5 total
pages (a reversed range, a plain page, an invalid fragment, and an
out-of-range page). -/
theorem parse_page_ranges_correct_witness :
    1 ≤ 5 ∧
    ((∀ p ∈ parsePageRanges (some ("2-1,5,x,12".toList)) 5, 1 ≤ p ∧ p ≤ 5) ∧
    (parsePageRanges (some ("2-1,5,x,12".toList)) 5).Nodup ∧
    parsePageRanges (some ("2-1,5,x,12".toList)) 5 ≠ [] ∧
    (∀ s, some ("2-1,5,x,12".toList) = some s → rawPages 5 s ≠ [] →
      parsePageRanges (some ("2-1,5,x,12".toList)) 5 = dedupKeepFirst [] (rawPages 5 s) ∧
      List.Sublist (parsePageRanges (some ("2-1,5,x,12".toList)) 5) (rawPages 5 s) ∧
      ∀ p, p ∈ parsePageRanges (some ("2-1,5,x,12".toList)) 5 ↔ p ∈ rawPages 5 s) ∧
    ((some ("2-1,5,x,12".toList) = none ∨
        (∃ s, some ("2-1,5,x,12".toList) = some s ∧ rawPages 5 s = [])) →
      parsePageRanges (some ("2-1,5,x,12".toList)) 5 = List.range' 1 5)) :=
  ⟨by norm_num, parse_page_ranges_correct (some ("2-1,5,x,12".toList)) 5 (by norm_num)⟩

/-! ### Python str() of a nonnegative int (used by the f-string building
each batch page range in pipeline.py line 240) -/

/-- The character of one decimal digit. -/
def decDigitChar : ℕ → Char
  | 0 => '0'
  | 1 => '1'
  | 2 => '2'
  | 3 => '3'
  | 4 => '4'
  | 5 => '5'
  | 6 => '6'
  | 7 => '7'
  | 8 => '8'
  | _ => '9'

/-- Least-significant-first decimal digits, with explicit fuel so that the
definition is structurally recursive (fuel at least n suffices). -/
def decDigitsAux : ℕ → ℕ → List ℕ
  | _, 0 => []
  | 0, _ + 1 => []
  | fuel + 1, n + 1 => ((n + 1) % 10) :: decDigitsAux fuel ((n + 1) / 10)

/-- Python str(n) / f-string formatting of a nonnegative int. -/
def pyStr (n : ℕ) : List Char :=
  if n = 0 then ['0'] else ((decDigitsAux n n).reverse.map decDigitChar)

theorem decDigitsAux_eq : ∀ (n fuel : ℕ), n ≤ fuel → decDigitsAux fuel n = Nat.digits 10 n := by
  intro n
  induction n using Nat.strong_induction_on with
  | _ n ih =>
    intro fuel hf
    rcases n with _ | m
    · rcases fuel with _ | f <;> simp [decDigitsAux]
    · rcases fuel with _ | f
      · omega
      · rw [show decDigitsAux (f + 1) (m + 1) = ((m + 1) % 10) :: decDigitsAux f ((m + 1) / 10)
          from rfl]
        rw [Nat.digits_def' (by norm_num : 1 < 10) (Nat.succ_pos m)]
        congr 1
        have hlt : (m + 1) / 10 < m + 1 := Nat.div_lt_self (Nat.succ_pos m) (by norm_num)
        exact ih ((m + 1) / 10) hlt f (by omega)

theorem digitVal_decDigitChar (d : ℕ) (h : d < 10) : digitVal (decDigitChar d) = d := by
  interval_cases d <;> decide

theorem decDigitChar_isDigit (d : ℕ) : (decDigitChar d).isDigit = true := by
  rcases d with _ | _ | _ | _ | _ | _ | _ | _ | _ | d <;> rfl

theorem isDigit_props (c : Char) (h : c.isDigit = true) :
    c ≠ '-' ∧ c ≠ '+' ∧ c ≠ ',' ∧ pyIsSpace c = false := by
  refine ⟨fun hc => ?_, fun hc => ?_, fun hc => ?_, ?_⟩
  · subst hc; exact absurd h (by decide)
  · subst hc; exact absurd h (by decide)
  · subst hc; exact absurd h (by decide)
  · by_contra hs
    rw [Bool.not_eq_false] at hs
    simp only [pyIsSpace, Bool.or_eq_true, decide_eq_true_eq] at hs
    rcases hs with ((((h1 | h1) | h1) | h1) | h1) | h1 <;> subst h1 <;>
      exact absurd h (by decide)

theorem pyStr_all_digit (n : ℕ) : ∀ c ∈ pyStr n, c.isDigit = true := by
  intro c hc
  unfold pyStr at hc
  by_cases h0 : n = 0
  · rw [if_pos h0] at hc
    rcases List.mem_singleton.mp hc with rfl
    decide
  · rw [if_neg h0] at hc
    rw [List.mem_map] at hc
    obtain ⟨d, _, hdef⟩ := hc
    subst hdef
    exact decDigitChar_isDigit d

theorem pyStr_ne_nil (n : ℕ) : pyStr n ≠ [] := by
  unfold pyStr
  by_cases h0 : n = 0
  · rw [if_pos h0]; simp
  · rw [if_neg h0]
    rw [decDigitsAux_eq n n le_rfl]
    simp [Nat.digits_ne_nil_iff_ne_zero, h0]

/-! ### Recovering the value: int(str(n)) = n -/

theorem foldl_digits (ds : List ℕ) (hd : ∀ d ∈ ds, d < 10) (a : ℕ) :
    (ds.reverse.map decDigitChar).foldl (fun x c => 10 * x + digitVal c) a =
      a * 10 ^ ds.length + Nat.ofDigits 10 ds := by
  induction ds generalizing a with
  | nil => simp
  | cons d t ih =>
    have hdt : ∀ x ∈ t, x < 10 := fun x hx => hd x (List.mem_cons_of_mem _ hx)
    have hd10 : d < 10 := hd d (List.mem_cons_self d t)
    rw [List.reverse_cons, List.map_append, List.foldl_append, ih hdt]
    simp only [List.map_cons, List.map_nil, List.foldl_cons, List.foldl_nil,
      List.length_cons, Nat.ofDigits_cons]
    rw [digitVal_decDigitChar d hd10]
    ring

theorem pyDigits?_pyStr (n : ℕ) : pyDigits? (pyStr n) = some n := by
  by_cases h0 : n = 0
  · subst h0; decide
  · unfold pyDigits?
    rw [if_pos ⟨pyStr_ne_nil n, List.all_eq_true.mpr (fun c hc => pyStr_all_digit n c hc)⟩]
    unfold pyStr
    rw [if_neg h0, decDigitsAux_eq n n le_rfl]
    rw [foldl_digits (Nat.digits 10 n) (fun d hd => Nat.digits_lt_base (by norm_num) hd) 0]
    rw [Nat.ofDigits_digits]
    simp

theorem pyStrip_eq_self (l : List Char) (h : ∀ c ∈ l, pyIsSpace c = false) :
    pyStrip l = l := by
  have hdrop : ∀ m : List Char, (∀ c ∈ m, pyIsSpace c = false) → m.dropWhile pyIsSpace = m := by
    intro m hm
    cases m with
    | nil => rfl
    | cons c cs =>
      rw [List.dropWhile_cons]
      rw [hm c (List.mem_cons_self c cs)]
      simp
  unfold pyStrip
  rw [hdrop l h, hdrop l.reverse (fun c hc => h c (List.mem_reverse.mp hc)), List.reverse_reverse]

theorem pyInt?_pyStr (n : ℕ) : pyInt? (pyStr n) = some (n : ℤ) := by
  have hstrip : pyStrip (pyStr n) = pyStr n :=
    pyStrip_eq_self _ (fun c hc => (isDigit_props c (pyStr_all_digit n c hc)).2.2.2)
  rcases hs : pyStr n with _ | ⟨c, rest⟩
  · exact absurd hs (pyStr_ne_nil n)
  · have hcdig : c.isDigit = true := pyStr_all_digit n c (hs ▸ List.mem_cons_self c rest)
    obtain ⟨hm, hp, _, _⟩ := isDigit_props c hcdig
    rw [hs] at hstrip
    unfold pyInt?
    rw [hstrip]
    dsimp only
    rw [if_neg hm, if_neg hp, ← hs, pyDigits?_pyStr n]
    rfl

/-! ### Parsing the f-string "{start_page}-{end_page}" built by the
batched pipeline (pipeline.py line 240) -/

/-- The batch page-range string f"{start}-{end}". -/
def pageRangeStr (a b : ℕ) : List Char := pyStr a ++ '-' :: pyStr b

theorem pySplit_of_not_mem (sep : Char) (l : List Char) (h : sep ∉ l) :
    pySplit sep l = [l] := by
  induction l with
  | nil => rfl
  | cons c cs ih =>
    have hc : c ≠ sep := fun hx => h (hx ▸ List.mem_cons_self c cs)
    have hcs : sep ∉ cs := fun hx => h (List.mem_cons_of_mem _ hx)
    unfold pySplit
    rw [ih hcs]
    simp [hc]

theorem takeWhile_append_dash (A B : List Char) (h : '-' ∉ A) :
    ((A ++ '-' :: B).takeWhile (fun c => c ≠ '-')) = A := by
  induction A with
  | nil => simp [List.takeWhile_cons]
  | cons a A ih =>
    have ha : a ≠ '-' := fun hx => h (hx ▸ List.mem_cons_self a A)
    have hA : '-' ∉ A := fun hx => h (List.mem_cons_of_mem _ hx)
    rw [List.cons_append, List.takeWhile_cons_of_pos (by simp [ha]), ih hA]

theorem dropWhile_append_dash (A B : List Char) (h : '-' ∉ A) :
    ((A ++ '-' :: B).dropWhile (fun c => c ≠ '-')) = '-' :: B := by
  induction A with
  | nil => simp [List.dropWhile_cons]
  | cons a A ih =>
    have ha : a ≠ '-' := fun hx => h (hx ▸ List.mem_cons_self a A)
    have hA : '-' ∉ A := fun hx => h (List.mem_cons_of_mem _ hx)
    rw [List.cons_append, List.dropWhile_cons_of_pos (by simp [ha]), ih hA]

theorem dedupKeepFirst_eq_self :
    ∀ (seen l : List ℕ), l.Nodup → (∀ x ∈ l, x ∉ seen) → dedupKeepFirst seen l = l := by
  intro seen l
  induction l generalizing seen with
  | nil => intro _ _; rfl
  | cons p ps ih =>
    intro hn hd
    unfold dedupKeepFirst
    rw [if_neg (hd p (List.mem_cons_self p ps))]
    congr 1
    refine ih (p :: seen) (List.nodup_cons.mp hn).2 ?_
    intro x hx hc
    rcases List.mem_cons.mp hc with h | hcs
    · subst h; exact (List.nodup_cons.mp hn).1 hx
    · exact hd x (List.mem_cons_of_mem _ hx) hcs

theorem pageRangeStr_chars (a b : ℕ) :
    ∀ c ∈ pageRangeStr a b, c.isDigit = true ∨ c = '-' := by
  intro c hc
  unfold pageRangeStr at hc
  rcases List.mem_append.mp hc with h | h
  · exact Or.inl (pyStr_all_digit a c h)
  · rcases List.mem_cons.mp h with h | h
    · exact Or.inr h
    · exact Or.inl (pyStr_all_digit b c h)

/-- Feeding the batch f-string through the real parser recovers the batch
page range: _parse_page_ranges(f"{a}-{b}", total) = [a, ..., b]. -/
theorem parse_pageRangeStr (total a b : ℕ) (h1 : 1 ≤ a) (h2 : a ≤ b) (h3 : b ≤ total) :
    parsePageRanges (some (pageRangeStr a b)) total = List.range' a (b + 1 - a) := by
  have hnocomma : ',' ∉ pageRangeStr a b := by
    intro hc
    rcases pageRangeStr_chars a b ',' hc with h | h
    · exact absurd h (by decide)
    · exact absurd h (by decide)
  have hnospace : ∀ c ∈ pageRangeStr a b, pyIsSpace c = false := by
    intro c hc
    rcases pageRangeStr_chars a b c hc with h | h
    · exact (isDigit_props c h).2.2.2
    · subst h; decide
  have hne : pageRangeStr a b ≠ [] := by
    unfold pageRangeStr
    simp
  have hstrip : pyStrip (pageRangeStr a b) = pageRangeStr a b := pyStrip_eq_self _ hnospace
  have hdash : '-' ∈ pageRangeStr a b := by
    unfold pageRangeStr
    exact List.mem_append.mpr (Or.inr (List.mem_cons_self _ _))
  have hgood : '-' ∉ pyStr a := fun hc => absurd (pyStr_all_digit a '-' hc) (by decide)
  have hfrag : rangeFrag total (pageRangeStr a b) = List.range' a (b + 1 - a) := by
    unfold rangeFrag pageRangeStr
    rw [takeWhile_append_dash _ _ hgood, dropWhile_append_dash _ _ hgood]
    dsimp only [List.tail_cons]
    rw [pyInt?_pyStr a, pyInt?_pyStr b]
    dsimp only
    have hca : clampPage total (a : ℤ) = a := by unfold clampPage; omega
    have hcb : clampPage total (b : ℤ) = b := by unfold clampPage; omega
    rw [hca, hcb, if_pos h2]
  have hraw : rawPages total (pageRangeStr a b) = List.range' a (b + 1 - a) := by
    unfold rawPages
    rw [pySplit_of_not_mem ',' _ hnocomma]
    simp only [List.map_cons, List.map_nil, List.flatten_cons, List.flatten_nil,
      List.append_nil]
    rw [hstrip, if_neg hne, if_pos hdash, hfrag]
  have hrange_ne : List.range' a (b + 1 - a) ≠ [] := by
    simp only [ne_eq, List.range'_eq_nil]
    omega
  have hdedup : dedupKeepFirst [] (rawPages total (pageRangeStr a b)) =
      List.range' a (b + 1 - a) := by
    rw [hraw]
    exact dedupKeepFirst_eq_self [] _ (List.nodup_range' a (b + 1 - a))
      (fun x _ => List.not_mem_nil x)
  unfold parsePageRanges
  dsimp only
  rw [if_neg hne, hdedup, if_neg hrange_ne]

/-! ### app/config.py : the settings the embedded components read -/

/-- The Settings fields consumed by the embedded components (app/config.py
lines 48-65).  Python ints are modelled as integers, Python floats
(gigabytes, seconds) as rationals. -/
structure Settings where
  max_upload_mb : ℤ
  max_pages : ℤ
  enable_auto_batch : Bool
  batch_page_size : ℤ
  max_queue_size : ℤ
  max_workers : ℤ
  dynamic_workers : Bool
  reserve_gpu_mem_gb : ℚ
  mem_per_job_gb : ℚ
  min_system_memory_gb : ℚ

/-! ### app/services/dsocr_model.py / dsocr_vllm.py : the engine result -/

/-- What the opaque inference engine produces for one page.  The engine is
modelled as a deterministic function from page index to this record. -/
structure EnginePage where
  markdown_text : List Char
  raw_json : List Char

/-- DSResult (dsocr_model.py lines 126-143): one per processed page. -/
structure DSResult where
  page_index : ℕ
  markdown_text : List Char
  raw_json : List Char
deriving DecidableEq

/-- DSResult.json (dsocr_model.py lines 139-143): the page entry appended
to the aggregate layout.json. -/
def DSResult.json (r : DSResult) : ℕ × List Char := (r.page_index, r.raw_json)

/-- The DSResult produced for page p. -/
def mkResult (engine : ℕ → EnginePage) (p : ℕ) : DSResult :=
  { page_index := p
    markdown_text := (engine p).markdown_text
    raw_json := (engine p).raw_json }

/-- predict(input, ..., page_ranges) on a PDF with total pages
(dsocr_model.py lines 288-347 and dsocr_vllm.py lines 96-160): the page
list comes from _parse_page_ranges and one DSResult is produced per page,
in list order. -/
def predict (engine : ℕ → EnginePage) (total : ℕ) (spec : Option (List Char)) :
    List DSResult :=
  (parsePageRanges spec total).map (mkResult engine)

/-! ### app/services/pipeline.py : single and batched execution -/

/-- The value of the attribute access info = res.markdown in
DocumentPipeline._run_single (pipeline.py line 193).  DSResult.markdown is
a method (def markdown(self), dsocr_model.py line 133), not a property,
so the attribute access yields the bound method object, never a dict. -/
inductive MdAttr where
  | boundMethod
  | mdDict (markdown_texts : List Char)
deriving DecidableEq

/-- Attribute lookup res.markdown on a DSResult: a bound method. -/
def DSResult.markdownAttr (_ : DSResult) : MdAttr := MdAttr.boundMethod

/-- The md_parts list of _run_single (pipeline.py lines 189-202): a part
is collected only when isinstance(info, dict) holds and the text is
truthy after strip. -/
def mdPartsOf (outputs : List DSResult) : List (List Char) :=
  outputs.filterMap (fun r =>
    match r.markdownAttr with
    | MdAttr.mdDict t => if pyStrip t ≠ [] then some t else none
    | MdAttr.boundMethod => none)

/-- The combined full.md written by _run_single (pipeline.py lines
203-205): written only when md_parts is nonempty, joined by blank lines. -/
def fullMdSingle (outputs : List DSResult) : Option (List Char) :=
  match mdPartsOf outputs with
  | [] => none
  | p :: ps => some (List.intercalate ('\n' :: '\n' :: []) (p :: ps))

/-- The combined markdown written by _run_batched (pipeline.py lines
222-283): the batched path has no full.md step at all, it only invokes
save_to_json / save_to_markdown per result. -/
def fullMdBatched (_outputs : List DSResult) : Option (List Char) := none

/-- The pages array of the aggregate layout.json after save_to_json ran
once per result in iteration order (pipeline.py lines 177-180 and 274-278;
dsocr_model.py lines 166-192 appends one entry per call). -/
def layoutPages (outputs : List DSResult) : List (ℕ × List Char) :=
  outputs.map DSResult.json

/-- Python range(1, total_pages + 1, batch_size): the batch start pages
(pipeline.py line 238). -/
def batchStarts (total B : ℕ) : List ℕ :=
  List.range' 1 ((total + B - 1) / B) B

/-- _run_single with page_ranges: one predict call over the parsed range
(pipeline.py lines 132-173). -/
def runSingleOutputs (engine : ℕ → EnginePage) (total : ℕ)
    (spec : Option (List Char)) : List DSResult :=
  predict engine total spec

/-- _run_batched (pipeline.py lines 222-270): batch_size = max(1,
batch_page_size); for each start, end = min(start + batch - 1, total),
page_range = f"{start}-{end}", one independent predict per batch, results
accumulated in order with all_outputs.extend. -/
def runBatched (cfg : Settings) (engine : ℕ → EnginePage) (total : ℕ) :
    List DSResult :=
  ((batchStarts total (max 1 cfg.batch_page_size).toNat).map (fun s =>
    predict engine total
      (some (pageRangeStr s (min (s + (max 1 cfg.batch_page_size).toNat - 1) total))))).flatten

/-- The execution-mode decision of DocumentPipeline.run (pipeline.py lines
99-126): batched iff auto-batching is enabled, the page count is known and
exceeds batch_page_size, and the caller supplied no page range. -/
inductive ExecMode where
  | batched
  | single
deriving DecidableEq

def chooseMode (cfg : Settings) (pagesCount : Option ℤ) (pageRanges : Option (List Char)) :
    ExecMode :=
  match pagesCount with
  | some n =>
    if cfg.enable_auto_batch = true ∧ cfg.batch_page_size < n ∧ pageRanges = none then
      ExecMode.batched
    else ExecMode.single
  | none => ExecMode.single

/-! ### Batch coverage -/

theorem batch_cover (B N : ℕ) (hB : 1 ≤ B) :
    ∀ (cnt a : ℕ), 1 ≤ a → N + 1 - a ≤ cnt * B →
      ((List.range' a cnt B).map (fun s => List.range' s (min (s + B - 1) N + 1 - s))).flatten
        = List.range' a (N + 1 - a) := by
  intro cnt
  induction cnt with
  | zero =>
    intro a _ hle
    have h0 : N + 1 - a = 0 := by omega
    rw [h0]
    simp
  | succ cnt ih =>
    intro a ha hle
    rw [List.range'_succ, List.map_cons, List.flatten_cons]
    by_cases hcase : a + B ≤ N + 1
    · have hmin : min (a + B - 1) N = a + B - 1 := by omega
      rw [hmin]
      have hchunk : a + B - 1 + 1 - a = B := by omega
      rw [hchunk]
      rw [ih (a + B) (by omega) (by
        have := hle
        simp only [Nat.succ_mul] at this
        omega)]
      rw [List.range'_append_1]
      congr 1
      omega
    · have hmin : min (a + B - 1) N = N := by omega
      rw [hmin]
      have h2 : N + 1 - (a + B) = 0 := by omega
      rw [ih (a + B) (by omega) (by omega), h2]
      by_cases haN : a ≤ N
      · simp
      · have h1 : N + 1 - a = 0 := by omega
        rw [h1]
        simp

theorem mdPartsOf_eq_nil (outputs : List DSResult) : mdPartsOf outputs = [] := by
  induction outputs with
  | nil => rfl
  | cons r rs ih =>
    unfold mdPartsOf at ih ⊢
    rw [List.filterMap_cons]
    exact ih

theorem fullMdSingle_eq_none (outputs : List DSResult) : fullMdSingle outputs = none := by
  unfold fullMdSingle
  rw [mdPartsOf_eq_nil]

theorem runBatched_eq (cfg : Settings) (engine : ℕ → EnginePage) (P : ℕ)
    (hP : 1 ≤ P) (hB1 : 1 ≤ cfg.batch_page_size) :
    runBatched cfg engine P = (List.range' 1 P).map (mkResult engine) := by
  unfold runBatched
  set B := (max 1 cfg.batch_page_size).toNat with hBdef
  have hB : 1 ≤ B := by
    rw [hBdef]
    omega
  set cnt := (P + B - 1) / B with hcnt
  have hdm := Nat.div_add_mod (P + B - 1) B
  have hmodlt : (P + B - 1) % B < B := Nat.mod_lt _ (by omega)
  have hcovbound : P + 1 - 1 ≤ cnt * B := by
    rw [hcnt, Nat.mul_comm]
    omega
  have hstep : ∀ s ∈ batchStarts P B,
      predict engine P (some (pageRangeStr s (min (s + B - 1) P))) =
        (List.range' s (min (s + B - 1) P + 1 - s)).map (mkResult engine) := by
    intro s hs
    unfold batchStarts at hs
    rw [List.mem_range'] at hs
    obtain ⟨i, hi, hseq⟩ := hs
    have hs1 : 1 ≤ s := by omega
    have hsP : s ≤ P := by
      have h1 : B * i ≤ B * (cnt - 1) := Nat.mul_le_mul_left B (by omega)
      have h2 : B * (cnt - 1) + B = B * cnt := by
        have hc : cnt - 1 + 1 = cnt := by omega
        calc B * (cnt - 1) + B = B * (cnt - 1 + 1) := by ring
          _ = B * cnt := by rw [hc]
      have h3 : cnt * B ≤ P + B - 1 := by
        rw [hcnt]
        exact Nat.div_mul_le_self _ _
      have h4 : B * cnt = cnt * B := Nat.mul_comm B cnt
      omega
    have hse : s ≤ min (s + B - 1) P := by omega
    have heP : min (s + B - 1) P ≤ P := by omega
    unfold predict
    rw [parse_pageRangeStr P s (min (s + B - 1) P) hs1 hse heP]
  rw [List.map_congr_left hstep]
  have hcomp : (fun s => (List.range' s (min (s + B - 1) P + 1 - s)).map (mkResult engine)) =
      (List.map (mkResult engine)) ∘ (fun s => List.range' s (min (s + B - 1) P + 1 - s)) := rfl
  rw [hcomp, ← List.map_map, ← List.map_flatten]
  unfold batchStarts
  rw [← hcnt, batch_cover B P hB cnt 1 le_rfl hcovbound]
  have hP1 : P + 1 - 1 = P := by omega
  rw [hP1]

/-- C2: with auto-batching enabled, batch size B below the page count P,
and no caller-supplied page range, run dispatches to the batched path, the
batched outputs equal the single-pass outputs (so the per-batch results in
page order cover exactly pages 1..P once each in order), and the persisted
artifacts — the aggregate layout.json pages array and the combined
markdown document — coincide with those of the single-pass run (neither
path writes a combined markdown file: the single-pass markdown block never
fires because res.markdown is a bound method, and the batched path has no
such block). -/
theorem batching_equivalence (cfg : Settings) (engine : ℕ → EnginePage) (P : ℕ)
    (hP : 1 ≤ P) (hB1 : 1 ≤ cfg.batch_page_size) (hBP : cfg.batch_page_size < (P : ℤ))
    (hab : cfg.enable_auto_batch = true) :
    chooseMode cfg (some (P : ℤ)) none = ExecMode.batched ∧
    runBatched cfg engine P = runSingleOutputs engine P none ∧
    (runBatched cfg engine P).map DSResult.page_index = List.range' 1 P ∧
    layoutPages (runBatched cfg engine P) = layoutPages (runSingleOutputs engine P none) ∧
    fullMdBatched (runBatched cfg engine P) = fullMdSingle (runSingleOutputs engine P none) := by
  have hmain := runBatched_eq cfg engine P hP hB1
  have hsingle : runSingleOutputs engine P none = (List.range' 1 P).map (mkResult engine) := rfl
  refine ⟨?_, ?_, ?_, ?_, ?_⟩
  · show (if cfg.enable_auto_batch = true ∧ cfg.batch_page_size < (P : ℤ) ∧
        (none : Option (List Char)) = none then ExecMode.batched else ExecMode.single) =
      ExecMode.batched
    rw [if_pos ⟨hab, hBP, rfl⟩]
  · rw [hmain, hsingle]
  · rw [hmain, List.map_map]
    have : DSResult.page_index ∘ mkResult engine = id := rfl
    rw [this, List.map_id]
  · rw [hmain, hsingle]
  · rw [fullMdSingle_eq_none]
    rfl

/-- A concrete settings record shared by the witnesses. -/
def cfgA : Settings :=
  { max_upload_mb := 200
    max_pages := 500
    enable_auto_batch := true
    batch_page_size := 2
    max_queue_size := 100
    max_workers := 4
    dynamic_workers := true
    reserve_gpu_mem_gb := 1
    mem_per_job_gb := 8
    min_system_memory_gb := 2 }

/-- A concrete deterministic engine for the witnesses. -/
def engineA : ℕ → EnginePage := fun p => { markdown_text := pyStr p, raw_json := pyStr p }

/-- Witness for C2 at P = 3 pages, batch size 2. -/
theorem batching_equivalence_witness :
    (1 ≤ 3 ∧ 1 ≤ cfgA.batch_page_size ∧ cfgA.batch_page_size < (3 : ℤ) ∧
      cfgA.enable_auto_batch = true) ∧
    (chooseMode cfgA (some (3 : ℤ)) none = ExecMode.batched ∧
    runBatched cfgA engineA 3 = runSingleOutputs engineA 3 none ∧
    (runBatched cfgA engineA 3).map DSResult.page_index = List.range' 1 3 ∧
    layoutPages (runBatched cfgA engineA 3) = layoutPages (runSingleOutputs engineA 3 none) ∧
    fullMdBatched (runBatched cfgA engineA 3) = fullMdSingle (runSingleOutputs engineA 3 none)) :=
  ⟨⟨by norm_num, by decide, by decide, by decide⟩,
    batching_equivalence cfgA engineA 3 (by norm_num) (by decide) (by decide) (by decide)⟩

/-! ### app/services/pipeline.py : DocumentPipeline.run up to acquisition -/

inductive PipelineError where
  | statError
  | sizeLimit
  | pageLimit
deriving DecidableEq

/-- The body of the try block at pipeline.py lines 62-66: stat the input
file (OSError when it is missing, modelled by sizeStat = none) and raise
ValueError when the size exceeds max(1, max_upload_mb) MiB. -/
def sizeCheckBody (cfg : Settings) (sizeStat : Option ℤ) : Except PipelineError Unit :=
  match sizeStat with
  | none => Except.error PipelineError.statError
  | some sizeBytes =>
    if sizeBytes > max 1 cfg.max_upload_mb * 1024 * 1024 then
      Except.error PipelineError.sizeLimit
    else Except.ok ()

/-- Outcome of DocumentPipeline.run up to the point where an inference
context would first be acquired. -/
inductive RunOutcome where
  | failedBeforeAcquire (e : PipelineError)
  | reachedAcquisition (mode : ExecMode)
deriving DecidableEq

/-- DocumentPipeline.run (pipeline.py lines 39-126) up to engine
acquisition.  The size check (lines 61-68) runs inside
try/except Exception: pass, so whatever it raises — including its own
size-limit ValueError — is swallowed and execution continues.  The
page-count ceiling (lines 70-80) raises outside any try and propagates.
Then the execution mode is chosen (lines 99-126).  sizeStat is the stat()
result of the materialised input file; pagesCount is the PDF page count
(none when unknown, tolerated). -/
def runGate (cfg : Settings) (sizeStat : Option ℤ) (isPdf : Bool)
    (pagesCount : Option ℤ) (pageRanges : Option (List Char)) : RunOutcome :=
  let _swallowed := sizeCheckBody cfg sizeStat
  if isPdf then
    match pagesCount with
    | some n =>
      if n > cfg.max_pages then RunOutcome.failedBeforeAcquire PipelineError.pageLimit
      else RunOutcome.reachedAcquisition (chooseMode cfg (some n) pageRanges)
    | none => RunOutcome.reachedAcquisition (chooseMode cfg none pageRanges)
  else RunOutcome.reachedAcquisition (chooseMode cfg none pageRanges)

/-- C1 (code bug): with the default 200 MB ceiling, an input file one byte
over the limit makes the size check raise the size-limit error, yet run
still reaches engine acquisition, because pipeline.py wraps the check
(lines 62-68) in try/except Exception: pass and thereby swallows the very
ValueError it raises.  The claimed raise-before-acquisition never
happens for oversized local files. -/
theorem size_limit_swallowed :
    sizeCheckBody cfgA (some (200 * 1024 * 1024 + 1)) =
      Except.error PipelineError.sizeLimit ∧
    runGate cfgA (some (200 * 1024 * 1024 + 1)) false none none =
      RunOutcome.reachedAcquisition ExecMode.single := by
  constructor
  · rfl
  · rfl

/-! ### app/services/queue.py : JobQueue -/

/-- schemas.py lines 10-15. -/
inductive JobStatus where
  | queued
  | processing
  | succeeded
  | failed
  | canceled
deriving DecidableEq

/-- Python dict lookup on an association list keyed by task id. -/
def alLookup {α : Type} (k : List Char) : List (List Char × α) → Option α
  | [] => none
  | (k0, v) :: rest => if k0 = k then some v else alLookup k rest

/-- Python dict assignment d[k] = v: replace an existing binding or
append a new one. -/
def alInsert {α : Type} (k : List Char) (v : α) :
    List (List Char × α) → List (List Char × α)
  | [] => [(k, v)]
  | (k0, v0) :: rest =>
    if k0 = k then (k, v) :: rest else (k0, v0) :: alInsert k v rest

/-- JobQueue state: the in-memory _jobs table (job records abstracted to
their status), the bounded FIFO of task ids, and the per-task
job_status.json persisted on storage (queue.py lines 24-34; job records
per domain/job.py). -/
structure QueueState where
  jobs : List (List Char × JobStatus)
  queue : List (List Char)
  persisted : List (List Char × JobStatus)
deriving DecidableEq

def emptyQueueState : QueueState := { jobs := [], queue := [], persisted := [] }

/-- The bound of the queue: queue.Queue(maxsize=max(1, max_queue_size))
(queue.py lines 28-29). -/
def queueCapacity (cfg : Settings) : ℕ := (max 1 cfg.max_queue_size).toNat

/-- JobQueue.submit (queue.py lines 36-54): first register the job in
_jobs and persist its queued status (job.dump_status), then attempt a
non-blocking put; on queue.Full return False with no cleanup. -/
def submit (cfg : Settings) (st : QueueState) (taskId : List Char) :
    Bool × QueueState :=
  let jobs' := alInsert taskId JobStatus.queued st.jobs
  let persisted' := alInsert taskId JobStatus.queued st.persisted
  if st.queue.length < queueCapacity cfg then
    (true, { jobs := jobs', queue := st.queue ++ [taskId], persisted := persisted' })
  else
    (false, { jobs := jobs', queue := st.queue, persisted := persisted' })

/-- A sequence of submissions with no worker draining the queue. -/
def submitAll (cfg : Settings) (st : QueueState) :
    List (List Char) → QueueState × List Bool
  | [] => (st, [])
  | t :: ts =>
    let r := submit cfg st t
    let rest := submitAll cfg r.2 ts
    (rest.1, r.1 :: rest.2)

theorem alLookup_alInsert_self {α : Type} (k : List Char) (v : α) :
    ∀ l : List (List Char × α), alLookup k (alInsert k v l) = some v := by
  intro l
  induction l with
  | nil => simp [alInsert, alLookup]
  | cons p rest ih =>
    unfold alInsert
    by_cases hk : p.1 = k
    · rw [if_pos hk]
      simp [alLookup]
    · rw [if_neg hk]
      unfold alLookup
      rw [if_neg hk]
      exact ih

theorem submitAll_spec (cfg : Settings) :
    ∀ (ts : List (List Char)) (st : QueueState),
      st.queue.length ≤ queueCapacity cfg →
      ((submitAll cfg st ts).1).queue.length ≤ queueCapacity cfg ∧
      (submitAll cfg st ts).2 =
        (List.range ts.length).map
          (fun i => decide (st.queue.length + i < queueCapacity cfg)) := by
  intro ts
  induction ts with
  | nil => intro st hst; exact ⟨hst, rfl⟩
  | cons t ts ih =>
    intro st hst
    unfold submitAll submit
    by_cases hq : st.queue.length < queueCapacity cfg
    · rw [if_pos hq]
      dsimp only
      obtain ⟨ih1, ih2⟩ := ih
        { jobs := alInsert t JobStatus.queued st.jobs
          queue := st.queue ++ [t]
          persisted := alInsert t JobStatus.queued st.persisted }
        (by simpa using hq)
      refine ⟨ih1, ?_⟩
      rw [ih2]
      rw [List.length_cons, List.range_succ_eq_map, List.map_cons, List.map_map]
      congr 1
      · simp [hq]
      · apply List.map_congr_left
        intro i _
        simp only [Function.comp_apply, List.length_append, List.length_cons,
          List.length_nil, decide_eq_decide]
        omega
    · rw [if_neg hq]
      dsimp only
      obtain ⟨ih1, ih2⟩ := ih
        { jobs := alInsert t JobStatus.queued st.jobs
          queue := st.queue
          persisted := alInsert t JobStatus.queued st.persisted }
        hst
      refine ⟨ih1, ?_⟩
      rw [ih2]
      rw [List.length_cons, List.range_succ_eq_map, List.map_cons, List.map_map]
      congr 1
      · simp
        omega
      · apply List.map_congr_left
        intro i _
        simp only [Function.comp_apply, decide_eq_decide]
        omega

/-- C8: submit never blocks; it returns false exactly when the queue
already holds capacity-many jobs (with capacity the configured
max_queue_size); over any submission sequence with no worker draining,
the queue length never exceeds capacity and the i-th submission succeeds
iff i is below capacity. -/
theorem submit_backpressure (cfg : Settings) (h : 1 ≤ cfg.max_queue_size) :
    queueCapacity cfg = cfg.max_queue_size.toNat ∧
    (∀ st t, (submit cfg st t).1 = false ↔ queueCapacity cfg ≤ st.queue.length) ∧
    (∀ ts, ((submitAll cfg emptyQueueState ts).1).queue.length ≤ queueCapacity cfg) ∧
    (∀ ts, (submitAll cfg emptyQueueState ts).2 =
      (List.range ts.length).map (fun i => decide (i < queueCapacity cfg))) := by
  refine ⟨?_, ?_, ?_, ?_⟩
  · unfold queueCapacity
    omega
  · intro st t
    unfold submit
    by_cases hq : st.queue.length < queueCapacity cfg
    · rw [if_pos hq]
      simp
      omega
    · rw [if_neg hq]
      simp
      omega
  · intro ts
    exact (submitAll_spec cfg ts emptyQueueState (by simp [emptyQueueState])).1
  · intro ts
    have hr := (submitAll_spec cfg ts emptyQueueState (by simp [emptyQueueState])).2
    rw [hr]
    apply List.map_congr_left
    intro i _
    simp [emptyQueueState]

/-- Witness for C8 at the concrete configuration. -/
theorem submit_backpressure_witness :
    1 ≤ cfgA.max_queue_size ∧
    (queueCapacity cfgA = cfgA.max_queue_size.toNat ∧
    (∀ st t, (submit cfgA st t).1 = false ↔ queueCapacity cfgA ≤ st.queue.length) ∧
    (∀ ts, ((submitAll cfgA emptyQueueState ts).1).queue.length ≤ queueCapacity cfgA) ∧
    (∀ ts, (submitAll cfgA emptyQueueState ts).2 =
      (List.range ts.length).map (fun i => decide (i < queueCapacity cfgA)))) :=
  ⟨by decide, submit_backpressure cfgA (by decide)⟩

/-- A capacity-one configuration for the C3 counterexample. -/
def cfgB : Settings := { cfgA with max_queue_size := 1 }

/-- C3 counterexample: with capacity 1, submit a first job (accepted) then
a second (rejected).  The rejected submission returns false, yet the
second job remains registered in the in-memory job table and its queued
status has been persisted to storage — contradicting the claim that no
record is retained and no status persisted. -/
theorem submit_full_keeps_job :
    ((submit cfgB (submit cfgB emptyQueueState ('j' :: '1' :: [])).2
        ('j' :: '2' :: [])).1 = false) ∧
    alLookup ('j' :: '2' :: [])
      ((submit cfgB (submit cfgB emptyQueueState ('j' :: '1' :: [])).2
        ('j' :: '2' :: [])).2).jobs = some JobStatus.queued ∧
    alLookup ('j' :: '2' :: [])
      ((submit cfgB (submit cfgB emptyQueueState ('j' :: '1' :: [])).2
        ('j' :: '2' :: [])).2).persisted = some JobStatus.queued := by
  refine ⟨?_, ?_, ?_⟩ <;> decide

/-- C3 amended: when submit returns false because the queue is full, the
job is never enqueued (the queue is unchanged), but the job record is
retained in the in-memory job table and its queued status has already
been persisted to storage — queue.py lines 41-43 run before the
non-blocking put and queue.Full triggers no cleanup. -/
theorem submit_full_behavior (cfg : Settings) (st : QueueState) (t : List Char)
    (h : (submit cfg st t).1 = false) :
    ((submit cfg st t).2).queue = st.queue ∧
    alLookup t ((submit cfg st t).2).jobs = some JobStatus.queued ∧
    alLookup t ((submit cfg st t).2).persisted = some JobStatus.queued := by
  unfold submit at h ⊢
  by_cases hq : st.queue.length < queueCapacity cfg
  · rw [if_pos hq] at h
    cases h
  · rw [if_neg hq]
    exact ⟨rfl, alLookup_alInsert_self t JobStatus.queued st.jobs,
      alLookup_alInsert_self t JobStatus.queued st.persisted⟩

/-- Witness for the amended C3 at the capacity-one configuration. -/
theorem submit_full_behavior_witness :
    ((submit cfgB (submit cfgB emptyQueueState ('j' :: '1' :: [])).2
        ('j' :: '3' :: [])).1 = false) ∧
    (((submit cfgB (submit cfgB emptyQueueState ('j' :: '1' :: [])).2
        ('j' :: '3' :: [])).2).queue =
      ((submit cfgB emptyQueueState ('j' :: '1' :: [])).2).queue ∧
    alLookup ('j' :: '3' :: [])
      ((submit cfgB (submit cfgB emptyQueueState ('j' :: '1' :: [])).2
        ('j' :: '3' :: [])).2).jobs = some JobStatus.queued ∧
    alLookup ('j' :: '3' :: [])
      ((submit cfgB (submit cfgB emptyQueueState ('j' :: '1' :: [])).2
        ('j' :: '3' :: [])).2).persisted = some JobStatus.queued) :=
  ⟨by decide, submit_full_behavior cfgB _ _ (by decide)⟩

/-! ### app/services/model_manager.py : the resource gate -/

inductive DeviceKind where
  | gpu
  | cpu
  | unknown
deriving DecidableEq

/-- ModelManager._allowed_gpu_concurrency (model_manager.py lines
165-197).  gpuMem is the (free, total) NVML reading in GB, none when
unavailable.  Without dynamic workers the allowance is min(max_workers,1)
floored at 1; off-GPU or without a reading it is 1; otherwise
floor((max(0, free - max(0, reserve))) / max(0.1, per_job)), floored at 1
and clamped to max_workers (itself floored at 1). -/
def allowedGpuConcurrency (cfg : Settings) (device : DeviceKind)
    (gpuMem : Option (ℚ × ℚ)) : ℤ :=
  if cfg.dynamic_workers = false then max 1 (min cfg.max_workers 1)
  else if device ≠ DeviceKind.gpu then 1
  else
    match gpuMem with
    | none => 1
    | some fm =>
      let reserve := max 0 cfg.reserve_gpu_mem_gb
      let usable := max 0 (fm.1 - reserve)
      let per := max (1 / 10) cfg.mem_per_job_gb
      let allowed0 := ⌊usable / per⌋
      let allowed1 := if allowed0 ≤ 0 then 1 else allowed0
      max 1 (min cfg.max_workers allowed1)

/-- ModelManager._check_memory_available (model_manager.py lines 199-225)
with utils/gpu.py check_memory_pressure (lines 54-62): reject under
system-memory pressure (available below the floor; an unreadable reading
counts as no pressure); off GPU that is all; on GPU additionally require
free GPU memory strictly above reserve + per-job cost (an unreadable GPU
reading rejects). -/
def checkMemoryAvailable (cfg : Settings) (device : DeviceKind)
    (sysMem : Option (ℚ × ℚ)) (gpuMem : Option (ℚ × ℚ)) : Bool :=
  let pressure :=
    match sysMem with
    | none => false
    | some at0 => decide (at0.1 < cfg.min_system_memory_gb)
  if pressure then false
  else if device ≠ DeviceKind.gpu then true
  else
    match gpuMem with
    | none => false
    | some fm => decide (fm.1 > cfg.reserve_gpu_mem_gb + cfg.mem_per_job_gb)

/-- One iteration of the GPU-slot polling loop as observed by a single
acquirer: the memory readings taken under the lock, the in-flight count
at that moment (other workers mutate it between iterations), and whether
time.time() - start_ts > timeout held at the post-attempt check. -/
structure GateObs where
  sysMem : Option (ℚ × ℚ)
  gpuMem : Option (ℚ × ℚ)
  busy : ℤ
  elapsedOver : Bool

inductive GateOutcome where
  | acquired (busyAfter : ℤ)
  | timedOut
  | pending
deriving DecidableEq

/-- The GPU-slot polling loop of inference_context (model_manager.py
lines 250-265) for runtime_device gpu and a non-vLLM backend, with a
caller-supplied timeout: per iteration, under the lock, admit
(incrementing the in-flight count) iff memory is available and the count
is below the dynamic allowance; otherwise raise TimeoutError once the
deadline has passed, else sleep and poll again.  pending is the cut-off
of a trace that ends mid-poll. -/
def gateLoop (cfg : Settings) (device : DeviceKind) : List GateObs → GateOutcome
  | [] => GateOutcome.pending
  | o :: rest =>
    if checkMemoryAvailable cfg device o.sysMem o.gpuMem = true ∧
        o.busy < allowedGpuConcurrency cfg device o.gpuMem then
      GateOutcome.acquired (o.busy + 1)
    else if o.elapsedOver then GateOutcome.timedOut
    else gateLoop cfg device rest

theorem gateLoop_no_slot (cfg : Settings) (device : DeviceKind) :
    ∀ tr : List GateObs,
      (∀ o ∈ tr, allowedGpuConcurrency cfg device o.gpuMem ≤ o.busy) →
      (∀ b, gateLoop cfg device tr ≠ GateOutcome.acquired b) ∧
      (tr.any (fun o => o.elapsedOver) = true →
        gateLoop cfg device tr = GateOutcome.timedOut) := by
  intro tr
  induction tr with
  | nil =>
    intro _
    exact ⟨fun b hc => (by cases hc), fun hc => (by cases hc)⟩
  | cons o rest ih =>
    intro h
    have hno : ¬(checkMemoryAvailable cfg device o.sysMem o.gpuMem = true ∧
        o.busy < allowedGpuConcurrency cfg device o.gpuMem) := by
      rintro ⟨-, hlt⟩
      have := h o (List.mem_cons_self o rest)
      omega
    unfold gateLoop
    rw [if_neg hno]
    by_cases he : o.elapsedOver
    · rw [if_pos he]
      exact ⟨fun b hc => (by cases hc), fun _ => rfl⟩
    · rw [if_neg he]
      obtain ⟨ih1, ih2⟩ := ih (fun o' ho' => h o' (List.mem_cons_of_mem _ ho'))
      refine ⟨ih1, fun hany => ?_⟩
      rw [List.any_cons] at hany
      have hb : o.elapsedOver = false := by
        rwa [Bool.not_eq_true] at he
      rw [hb, Bool.false_or] at hany
      exact ih2 hany

/-- C4: with dynamic workers on, device gpu, a GPU reading (F, T),
reserve R at least 0, per-job cost P at least 0.1 and worker cap W at
least 1, the computed allowance equals min(W, max(1, floor((F - R) / P)));
and an acquirer that at every poll sees the in-flight count at or above
the then-computed allowance never acquires, and raises the timeout error
at the first poll whose deadline check fires. -/
theorem resource_gate_correct (cfg : Settings) (F T : ℚ) (trace : List GateObs)
    (hdyn : cfg.dynamic_workers = true) (hR : 0 ≤ cfg.reserve_gpu_mem_gb)
    (hP : 1 / 10 ≤ cfg.mem_per_job_gb) (hW : 1 ≤ cfg.max_workers)
    (hbusy : ∀ o ∈ trace, allowedGpuConcurrency cfg DeviceKind.gpu o.gpuMem ≤ o.busy) :
    allowedGpuConcurrency cfg DeviceKind.gpu (some (F, T)) =
      min cfg.max_workers
        (max 1 ⌊(F - cfg.reserve_gpu_mem_gb) / cfg.mem_per_job_gb⌋) ∧
    (∀ b, gateLoop cfg DeviceKind.gpu trace ≠ GateOutcome.acquired b) ∧
    (trace.any (fun o => o.elapsedOver) = true →
      gateLoop cfg DeviceKind.gpu trace = GateOutcome.timedOut) := by
  obtain ⟨hl1, hl2⟩ := gateLoop_no_slot cfg DeviceKind.gpu trace hbusy
  refine ⟨?_, hl1, hl2⟩
  unfold allowedGpuConcurrency
  rw [if_neg (by simp [hdyn])]
  rw [if_neg (by simp)]
  dsimp only
  rw [max_eq_right hR, max_eq_right hP]
  have hPpos : (0 : ℚ) < cfg.mem_per_job_gb := lt_of_lt_of_le (by norm_num) hP
  by_cases hFR : 0 ≤ F - cfg.reserve_gpu_mem_gb
  · rw [max_eq_right hFR]
    set x := ⌊(F - cfg.reserve_gpu_mem_gb) / cfg.mem_per_job_gb⌋ with hx
    by_cases hx0 : x ≤ 0
    · rw [if_pos hx0]
      omega
    · rw [if_neg hx0]
      omega
  · have hmax : max 0 (F - cfg.reserve_gpu_mem_gb) = 0 := max_eq_left (by linarith)
    rw [hmax, zero_div, Int.floor_zero, if_pos le_rfl]
    have hfl : ⌊(F - cfg.reserve_gpu_mem_gb) / cfg.mem_per_job_gb⌋ ≤ 0 :=
      Int.floor_nonpos (div_nonpos_of_nonpos_of_nonneg (by linarith) (le_of_lt hPpos))
    omega

/-- Witness for C4: reserve 1 GB, 8 GB per job, cap 4, a 20 GB free
reading, and a two-poll trace (GPU reading unavailable there, allowance 1)
at in-flight count 2 whose second poll is past the deadline. -/
theorem resource_gate_correct_witness :
    (cfgA.dynamic_workers = true ∧ 0 ≤ cfgA.reserve_gpu_mem_gb ∧
      1 / 10 ≤ cfgA.mem_per_job_gb ∧ 1 ≤ cfgA.max_workers ∧
      (∀ o ∈ [GateObs.mk (some (8, 16)) none 2 false,
              GateObs.mk (some (8, 16)) none 2 true],
        allowedGpuConcurrency cfgA DeviceKind.gpu o.gpuMem ≤ o.busy)) ∧
    (allowedGpuConcurrency cfgA DeviceKind.gpu (some (20, 24)) =
      min cfgA.max_workers
        (max 1 ⌊((20 : ℚ) - cfgA.reserve_gpu_mem_gb) / cfgA.mem_per_job_gb⌋) ∧
    (∀ b, gateLoop cfgA DeviceKind.gpu
        [GateObs.mk (some (8, 16)) none 2 false,
         GateObs.mk (some (8, 16)) none 2 true] ≠ GateOutcome.acquired b) ∧
    (([GateObs.mk (some (8, 16)) none 2 false,
       GateObs.mk (some (8, 16)) none 2 true].any
        (fun o => o.elapsedOver) = true) →
      gateLoop cfgA DeviceKind.gpu
        [GateObs.mk (some (8, 16)) none 2 false,
         GateObs.mk (some (8, 16)) none 2 true] = GateOutcome.timedOut)) := by
  have hall : allowedGpuConcurrency cfgA DeviceKind.gpu none = 1 := rfl
  have hbusy : ∀ o ∈ [GateObs.mk (some (8, 16)) none 2 false,
      GateObs.mk (some (8, 16)) none 2 true],
      allowedGpuConcurrency cfgA DeviceKind.gpu o.gpuMem ≤ o.busy := by
    intro o ho
    fin_cases ho <;> rw [hall] <;> norm_num
  refine ⟨⟨rfl, by norm_num [cfgA], by norm_num [cfgA], by decide, hbusy⟩, ?_⟩
  exact resource_gate_correct cfgA 20 24 _ rfl (by norm_num [cfgA]) (by norm_num [cfgA])
    (by decide) hbusy

/-- The memory readings taken during one admission poll. -/
structure MemObs where
  sysMem : Option (ℚ × ℚ)
  gpuMem : Option (ℚ × ℚ)

/-- The finally block of inference_context (model_manager.py lines
269-278): when (and only when) this context acquired a GPU slot, the
in-flight counter becomes max(0, busy - 1) and the last-used timestamp is
set to now; otherwise both are untouched by the exit. -/
def inferenceExit (acquired : Bool) (busy : ℤ) (lastUsed now : ℚ) : ℤ × ℚ :=
  if acquired then (max 0 (busy - 1), now) else (busy, lastUsed)

/-- Events touching the shared (in-flight count, last-used) state of the
ModelManager: one admission poll of the gate taken under the lock
(model_manager.py lines 251-262), or one context exit (lines 269-278). -/
inductive MMEvent where
  | acquireAt (m : MemObs)
  | exitCtx (acquired : Bool) (now : ℚ)

/-- One transition of the shared (busy, last-used) state. -/
def mmStep (cfg : Settings) (device : DeviceKind) :
    ℤ × ℚ → MMEvent → ℤ × ℚ
  | (busy, ts), MMEvent.acquireAt m =>
    if checkMemoryAvailable cfg device m.sysMem m.gpuMem = true ∧
        busy < allowedGpuConcurrency cfg device m.gpuMem then
      (busy + 1, ts)
    else (busy, ts)
  | (busy, ts), MMEvent.exitCtx acquired now => inferenceExit acquired busy ts now

theorem mmStep_nonneg (cfg : Settings) (device : DeviceKind) :
    ∀ (events : List MMEvent) (st : ℤ × ℚ), 0 ≤ st.1 →
      0 ≤ (events.foldl (mmStep cfg device) st).1 := by
  intro events
  induction events with
  | nil => intro st h; exact h
  | cons e rest ih =>
    intro st h
    rw [List.foldl_cons]
    refine ih _ ?_
    rcases st with ⟨busy, ts⟩
    rcases e with m | ⟨acquired, now⟩
    · unfold mmStep
      dsimp only
      by_cases hc : checkMemoryAvailable cfg device m.sysMem m.gpuMem = true ∧
          busy < allowedGpuConcurrency cfg device m.gpuMem
      · rw [if_pos hc]
        dsimp only at h ⊢
        omega
      · rw [if_neg hc]
        exact h
    · unfold mmStep inferenceExit
      rcases acquired with _ | _
      · simpa using h
      · dsimp only
        rw [if_pos rfl]
        dsimp only
        omega

/-- C5: on exit of inference_context, if the context incremented the
in-flight counter then the counter is decremented (floored at 0) and the
last-used timestamp is refreshed, whether the body returned or raised;
if it did not, exit changes nothing.  Consequently, over every event
trace starting from counter 0, the in-flight count never becomes
negative; and every admission poll that increments the counter leaves it
at or below the allowance computed from that poll's memory readings. -/
theorem inference_context_release (cfg : Settings) (device : DeviceKind) (ts0 : ℚ)
    (events : List MMEvent) :
    (∀ (busy : ℤ) (ts now : ℚ),
      mmStep cfg device (busy, ts) (MMEvent.exitCtx true now) = (max 0 (busy - 1), now)) ∧
    (∀ (busy : ℤ) (ts now : ℚ),
      mmStep cfg device (busy, ts) (MMEvent.exitCtx false now) = (busy, ts)) ∧
    0 ≤ (events.foldl (mmStep cfg device) (0, ts0)).1 ∧
    (∀ (busy : ℤ) (ts : ℚ) (m : MemObs),
      (mmStep cfg device (busy, ts) (MMEvent.acquireAt m)).1 ≠ busy →
      (mmStep cfg device (busy, ts) (MMEvent.acquireAt m)).1 ≤
        allowedGpuConcurrency cfg device m.gpuMem) := by
  refine ⟨fun busy ts now => rfl, fun busy ts now => rfl,
    mmStep_nonneg cfg device events (0, ts0) le_rfl, ?_⟩
  intro busy ts m hne
  unfold mmStep at hne ⊢
  dsimp only at hne ⊢
  by_cases hc : checkMemoryAvailable cfg device m.sysMem m.gpuMem = true ∧
      busy < allowedGpuConcurrency cfg device m.gpuMem
  · rw [if_pos hc]
    dsimp only
    omega
  · rw [if_neg hc] at hne
    exact absurd rfl hne

/-- Witness for C5: a trace that acquires once (no GPU reading, allowance
1, count 0) and exits having acquired, applied at the shared concrete
configuration; the admission-bound clause is instantiated at that poll. -/
theorem inference_context_release_witness :
    ((mmStep cfgA DeviceKind.cpu ((0 : ℤ), (0 : ℚ))
        (MMEvent.acquireAt (MemObs.mk none none))).1 ≠ (0 : ℤ)) ∧
    (mmStep cfgA DeviceKind.cpu ((3 : ℤ), (0 : ℚ)) (MMEvent.exitCtx true 7) =
      (max 0 ((3 : ℤ) - 1), 7)) ∧
    0 ≤ (([MMEvent.acquireAt (MemObs.mk none none),
        MMEvent.exitCtx true 7].foldl (mmStep cfgA DeviceKind.cpu) (0, 0)).1) ∧
    ((mmStep cfgA DeviceKind.cpu ((0 : ℤ), (0 : ℚ))
        (MMEvent.acquireAt (MemObs.mk none none))).1 ≤
      allowedGpuConcurrency cfgA DeviceKind.cpu none) := by
  have h := inference_context_release cfgA DeviceKind.cpu 0
    [MMEvent.acquireAt (MemObs.mk none none), MMEvent.exitCtx true 7]
  have hne : (mmStep cfgA DeviceKind.cpu ((0 : ℤ), (0 : ℚ))
      (MMEvent.acquireAt (MemObs.mk none none))).1 ≠ (0 : ℤ) := by
    rw [show (mmStep cfgA DeviceKind.cpu ((0 : ℤ), (0 : ℚ))
      (MMEvent.acquireAt (MemObs.mk none none))).1 = (1 : ℤ) from rfl]
    norm_num
  exact ⟨hne, h.1 3 0 7, h.2.2.1, h.2.2.2 0 0 (MemObs.mk none none) hne⟩

/-! ### app/security/tokens.py : TokenManager -/

/-- The Token dataclass (tokens.py lines 22-36). -/
structure Token where
  token : List Char
  backend : List Char
  task_id : List Char
  kind : List Char
  object_key : Option (List Char)
  file_path : Option (List Char)
  max_downloads : ℤ
  remain : ℤ
  expire_at : ℚ
deriving DecidableEq

/-- Python dict.pop(k, None): drop the binding for k if present. -/
def alErase {α : Type} (k : List Char) :
    List (List Char × α) → List (List Char × α)
  | [] => []
  | (k0, v) :: rest => if k0 = k then rest else (k0, v) :: alErase k rest

/-- The persisted token table, keyed by token string. -/
def TokenStore := List (List Char × Token)

/-- TokenManager.create_token (tokens.py lines 62-87): build the record
with remain = max_downloads and expire_at = now + max(1, expire_seconds),
store it under the token string and persist synchronously.  The random
token string (secrets.token_urlsafe) and the clock reading are passed in
as parameters; backend is settings.publish_backend. -/
def create_token (backend : List Char) (now : ℚ) (tok task_id kind : List Char)
    (file_path object_key : Option (List Char)) (max_downloads expire_seconds : ℤ)
    (store : TokenStore) : Token × TokenStore :=
  let t : Token :=
    { token := tok
      backend := backend
      task_id := task_id
      kind := kind
      object_key := object_key
      file_path := file_path
      max_downloads := max_downloads
      remain := max_downloads
      expire_at := now + ((max 1 expire_seconds : ℤ) : ℚ) }
  (t, alInsert tok t store)

/-- TokenManager.consume (tokens.py lines 89-107): unknown token → None;
past expiry → purge and None; remain ≤ 0 → purge and None; otherwise
decrement remain, persist, and return the decremented record. -/
def consume (now : ℚ) (tok : List Char) (store : TokenStore) :
    Option Token × TokenStore :=
  match alLookup tok store with
  | none => (none, store)
  | some t =>
    if now > t.expire_at then (none, alErase tok store)
    else if t.remain ≤ 0 then (none, alErase tok store)
    else
      let t2 := { t with remain := t.remain - 1 }
      (some t2, alInsert tok t2 store)

/-- C6 counterexample: a token created with expire_seconds = 0 at time 0
gets expire_at = 1 (the ttl is clamped to max(1, 0) = 1 second), so
consuming it immediately succeeds — the claim says consume rejects it. -/
theorem ttl_zero_token_consumable :
    (create_token ('l' :: []) 0 ('t' :: []) ('j' :: []) ('m' :: [])
      none none 1 0 []).1.expire_at = 1 ∧
    ((consume 0 ('t' :: [])
      (create_token ('l' :: []) 0 ('t' :: []) ('j' :: []) ('m' :: [])
        none none 1 0 []).2).1.isSome = true) := by
  constructor
  · show (0 : ℚ) + ((max 1 0 : ℤ) : ℚ) = 1
    norm_num
  · simp only [consume, create_token, alLookup_alInsert_self]
    norm_num

/-- C6 amended: a token whose expiry timestamp is already in the past is
rejected by consume (None) and purged from the store even if never used;
however expire_seconds is clamped below by one second (expire_at =
created_at + max(1, ttl)), so a ttlSeconds = 0 token stays consumable
until one second past creation and is only rejected once now exceeds
expire_at. -/
theorem token_expiry (backend : List Char) (c u : ℚ) (tok task_id kind : List Char)
    (fp ok0 : Option (List Char)) (maxdl ttl : ℤ) (store : TokenStore) :
    (create_token backend c tok task_id kind fp ok0 maxdl ttl store).1.expire_at =
      c + ((max 1 ttl : ℤ) : ℚ) ∧
    (∀ t, alLookup tok store = some t → u > t.expire_at →
      consume u tok store = (none, alErase tok store)) := by
  refine ⟨rfl, ?_⟩
  intro t hlk hu
  unfold consume
  rw [hlk]
  dsimp only
  rw [if_pos hu]

/-- Witness for the amended C6: a token created at time 0 with ttl 0 is
dead at time 2 (expire_at = 1): consume returns None and erases it. -/
theorem token_expiry_witness :
    ((create_token ('l' :: []) 0 ('t' :: []) ('j' :: []) ('m' :: [])
        none none 1 0 []).1.expire_at = (0 : ℚ) + ((max 1 0 : ℤ) : ℚ)) ∧
    (consume 2 ('t' :: [])
        (create_token ('l' :: []) 0 ('t' :: []) ('j' :: []) ('m' :: [])
          none none 1 0 []).2 =
      (none, alErase ('t' :: [])
        (create_token ('l' :: []) 0 ('t' :: []) ('j' :: []) ('m' :: [])
          none none 1 0 []).2)) := by
  have h := token_expiry ('l' :: []) 0 2 ('t' :: []) ('j' :: []) ('m' :: [])
    none none 1 0 (create_token ('l' :: []) 0 ('t' :: []) ('j' :: []) ('m' :: [])
      none none 1 0 []).2
  refine ⟨h.1, ?_⟩
  refine h.2 _ (alLookup_alInsert_self _ _ _) ?_
  show (2 : ℚ) > (0 : ℚ) + ((max 1 0 : ℤ) : ℚ)
  norm_num

/-- C7: for a token created with max_downloads = 1 whose ttl has not
elapsed, the first consume succeeds and returns the record with remain =
0, the second consume (at any later clock reading) returns None and
purges the token; and in general any token that consume observes with
remain ≤ 0 or past expiry is removed from the store by that call. -/
theorem token_single_use (backend : List Char) (c u u2 : ℚ)
    (tok task_id kind : List Char) (fp ok0 : Option (List Char)) (ttl : ℤ)
    (store0 : TokenStore)
    (h1 : ¬ u > c + ((max 1 ttl : ℤ) : ℚ)) :
    (consume u tok (create_token backend c tok task_id kind fp ok0 1 ttl store0).2).1 =
      some { (create_token backend c tok task_id kind fp ok0 1 ttl store0).1 with
        remain := 0 } ∧
    consume u2 tok
        (consume u tok (create_token backend c tok task_id kind fp ok0 1 ttl store0).2).2 =
      (none, alErase tok
        (consume u tok (create_token backend c tok task_id kind fp ok0 1 ttl store0).2).2) ∧
    (∀ (store : TokenStore) (t : Token) (w : ℚ), alLookup tok store = some t →
      (t.remain ≤ 0 ∨ w > t.expire_at) →
      consume w tok store = (none, alErase tok store)) := by
  have hpurge : ∀ (store : TokenStore) (t : Token) (w : ℚ), alLookup tok store = some t →
      (t.remain ≤ 0 ∨ w > t.expire_at) →
      consume w tok store = (none, alErase tok store) := by
    intro store t w hlk hdead
    unfold consume
    rw [hlk]
    dsimp only
    by_cases hw : w > t.expire_at
    · rw [if_pos hw]
    · rw [if_neg hw]
      rcases hdead with hd | hd
      · rw [if_pos hd]
      · exact absurd hd hw
  have t0def : (create_token backend c tok task_id kind fp ok0 1 ttl store0).1 =
      { token := tok, backend := backend, task_id := task_id, kind := kind,
        object_key := ok0, file_path := fp, max_downloads := 1, remain := 1,
        expire_at := c + ((max 1 ttl : ℤ) : ℚ) } := rfl
  have hlk : alLookup tok (create_token backend c tok task_id kind fp ok0 1 ttl store0).2 =
      some (create_token backend c tok task_id kind fp ok0 1 ttl store0).1 :=
    alLookup_alInsert_self tok _ store0
  have hc1 : consume u tok (create_token backend c tok task_id kind fp ok0 1 ttl store0).2 =
      (some { (create_token backend c tok task_id kind fp ok0 1 ttl store0).1 with
          remain := 0 },
        alInsert tok
          { (create_token backend c tok task_id kind fp ok0 1 ttl store0).1 with
            remain := 0 }
          (create_token backend c tok task_id kind fp ok0 1 ttl store0).2) := by
    unfold consume
    rw [hlk]
    dsimp only
    rw [if_neg (show ¬ u >
        (create_token backend c tok task_id kind fp ok0 1 ttl store0).1.expire_at
      from h1)]
    rw [if_neg (show ¬ (create_token backend c tok task_id kind fp ok0 1 ttl store0).1.remain
        ≤ 0 from by rw [t0def]; norm_num)]
    have hsub : (create_token backend c tok task_id kind fp ok0 1 ttl store0).1.remain - 1 =
        (0 : ℤ) := rfl
    rw [hsub]
  have hlk2 : alLookup tok
      (consume u tok (create_token backend c tok task_id kind fp ok0 1 ttl store0).2).2 =
      some { (create_token backend c tok task_id kind fp ok0 1 ttl store0).1 with
        remain := 0 } := by
    rw [hc1]
    exact alLookup_alInsert_self tok _ _
  refine ⟨by rw [hc1], ?_, hpurge⟩
  exact hpurge _ _ u2 hlk2 (Or.inl le_rfl)

/-- Witness for C7: a token created at time 0 with a 60 second ttl and a
single use, consumed at times 0 and 5. -/
theorem token_single_use_witness :
    (¬ (0 : ℚ) > (0 : ℚ) + ((max 1 60 : ℤ) : ℚ)) ∧
    ((consume 0 ('t' :: []) (create_token ('l' :: []) 0 ('t' :: []) ('j' :: []) ('m' :: [])
        none none 1 60 []).2).1 =
      some { (create_token ('l' :: []) 0 ('t' :: []) ('j' :: []) ('m' :: [])
        none none 1 60 []).1 with remain := 0 } ∧
    consume 5 ('t' :: [])
        (consume 0 ('t' :: []) (create_token ('l' :: []) 0 ('t' :: []) ('j' :: []) ('m' :: [])
          none none 1 60 []).2).2 =
      (none, alErase ('t' :: [])
        (consume 0 ('t' :: []) (create_token ('l' :: []) 0 ('t' :: []) ('j' :: []) ('m' :: [])
          none none 1 60 []).2).2) ∧
    (∀ (store : TokenStore) (t : Token) (w : ℚ), alLookup ('t' :: []) store = some t →
      (t.remain ≤ 0 ∨ w > t.expire_at) →
      consume w ('t' :: []) store = (none, alErase ('t' :: []) store))) :=
  ⟨by norm_num,
    token_single_use ('l' :: []) 0 0 5 ('t' :: []) ('j' :: []) ('m' :: [])
      none none 60 [] (by norm_num)⟩

/-! ### app/security/rate_limit.py : RateLimiter -/

/-- RateLimiter parameters (rate_limit.py lines 9-15): rate = max(0.1,
rate_per_sec), burst = max(1, int(burst)), ttl = max(60, ttl_seconds). -/
structure RateLimiter where
  rate : ℚ
  burst : ℤ
  ttl : ℚ

def RateLimiter.make (rate_per_sec : ℚ) (burst : ℤ) (ttl_seconds : ℤ) : RateLimiter :=
  { rate := max (1 / 10) rate_per_sec
    burst := max 1 burst
    ttl := ((max 60 ttl_seconds : ℤ) : ℚ) }

/-- Limiter state: per-key buckets (tokens, last-refill timestamp) and
the last inline-cleanup time (the clock is time.monotonic). -/
structure RLState where
  buckets : List (List Char × (ℚ × ℚ))
  lastCleanup : ℚ

/-- RateLimiter._cleanup (rate_limit.py lines 38-49): at most once per 60
seconds, evict buckets untouched for longer than the ttl and stamp the
cleanup time. -/
def rlCleanup (rl : RateLimiter) (now : ℚ) (st : RLState) : RLState :=
  if now - st.lastCleanup < 60 then st
  else
    { buckets := st.buckets.filter (fun kv => decide (¬ kv.2.2 < now - rl.ttl))
      lastCleanup := now }

/-- RateLimiter.allow (rate_limit.py lines 51-66) with debit cost (the
tokens argument, default 1.0): run the inline cleanup, fetch the bucket
or create it at (burst, now), refill tok = min(burst, tok + rate *
max(0, now - last)), then admit and debit cost iff tok ≥ cost; the bucket
is rewritten with the new token count and last = now either way. -/
def allow (rl : RateLimiter) (cost : ℚ) (key : List Char) (now : ℚ) (st : RLState) :
    Bool × RLState :=
  let st1 := rlCleanup rl now st
  let tl :=
    match alLookup key st1.buckets with
    | some p => p
    | none => (((rl.burst : ℤ) : ℚ), now)
  let elapsed := max 0 (now - tl.2)
  let tok := min ((rl.burst : ℤ) : ℚ) (tl.1 + rl.rate * elapsed)
  if tok ≥ cost then
    (true, { st1 with buckets := alInsert key (tok - cost, now) st1.buckets })
  else
    (false, { st1 with buckets := alInsert key (tok, now) st1.buckets })

/-- A sequence of allow calls at the default cost 1, as issued by the API
middleware. -/
def allowTrace (rl : RateLimiter) (st : RLState) :
    List (List Char × ℚ) → RLState × List Bool
  | [] => (st, [])
  | kn :: rest =>
    let r := allow rl 1 kn.1 kn.2 st
    let rr := allowTrace rl r.2 rest
    (rr.1, r.1 :: rr.2)

/-- A limiter freshly constructed at monotonic time 0: no buckets,
cleanup stamp at construction. -/
def rlInit : RLState := { buckets := [], lastCleanup := 0 }

/-- The per-bucket invariant 0 ≤ tokens ≤ burst. -/
def bucketsInv (rl : RateLimiter) (st : RLState) : Prop :=
  ∀ kv ∈ st.buckets, 0 ≤ kv.2.1 ∧ kv.2.1 ≤ ((rl.burst : ℤ) : ℚ)

theorem mem_alInsert {α : Type} (k : List Char) (v : α) :
    ∀ (l : List (List Char × α)) (kv : List Char × α),
      kv ∈ alInsert k v l → kv = (k, v) ∨ kv ∈ l := by
  intro l
  induction l with
  | nil =>
    intro kv hkv
    rcases List.mem_singleton.mp hkv with rfl
    exact Or.inl rfl
  | cons p rest ih =>
    intro kv hkv
    unfold alInsert at hkv
    by_cases hk : p.1 = k
    · rw [if_pos hk] at hkv
      rcases List.mem_cons.mp hkv with h | h
      · exact Or.inl h
      · exact Or.inr (List.mem_cons_of_mem _ h)
    · rw [if_neg hk] at hkv
      rcases List.mem_cons.mp hkv with h | h
      · exact Or.inr (h ▸ List.mem_cons_self p rest)
      · rcases ih kv h with h2 | h2
        · exact Or.inl h2
        · exact Or.inr (List.mem_cons_of_mem _ h2)

theorem rlCleanup_inv (rl : RateLimiter) (now : ℚ) (st : RLState)
    (h : bucketsInv rl st) : bucketsInv rl (rlCleanup rl now st) := by
  unfold rlCleanup
  by_cases hc : now - st.lastCleanup < 60
  · rw [if_pos hc]; exact h
  · rw [if_neg hc]
    intro kv hkv
    exact h kv (List.mem_of_mem_filter hkv)

theorem alLookup_mem {α : Type} (k : List Char) (v : α) :
    ∀ l : List (List Char × α), alLookup k l = some v → ∃ q, q ∈ l ∧ q.2 = v := by
  intro l
  induction l with
  | nil => intro h; cases h
  | cons p rest ih =>
    intro h
    unfold alLookup at h
    by_cases hp : p.1 = k
    · rw [if_pos hp] at h
      injection h with hh
      exact ⟨p, List.mem_cons_self p rest, hh⟩
    · rw [if_neg hp] at h
      obtain ⟨q, hq1, hq2⟩ := ih h
      exact ⟨q, List.mem_cons_of_mem _ hq1, hq2⟩

theorem bucketsInv_insert (rl : RateLimiter) (st : RLState) (key : List Char)
    (v : ℚ × ℚ) (h : bucketsInv rl st)
    (hv : 0 ≤ v.1 ∧ v.1 ≤ ((rl.burst : ℤ) : ℚ)) :
    bucketsInv rl { st with buckets := alInsert key v st.buckets } := by
  intro kv hkv
  rcases mem_alInsert key v st.buckets kv hkv with h2 | h2
  · rw [h2]; exact hv
  · exact h kv h2

theorem allow_inv (rl : RateLimiter) (hb : 1 ≤ rl.burst) (hr : 0 ≤ rl.rate)
    (cost : ℚ) (hcost : 0 ≤ cost)
    (key : List Char) (now : ℚ) (st : RLState) (h : bucketsInv rl st) :
    bucketsInv rl (allow rl cost key now st).2 := by
  have h1 := rlCleanup_inv rl now st h
  have hbq : (0 : ℚ) ≤ ((rl.burst : ℤ) : ℚ) := by
    have h2 : (1 : ℚ) ≤ ((rl.burst : ℤ) : ℚ) := by exact_mod_cast hb
    linarith
  unfold allow
  rcases hlk : alLookup key (rlCleanup rl now st).buckets with _ | p
  · simp only [hlk]
    set base := ((rl.burst : ℤ) : ℚ) + rl.rate * max 0 (now - now) with hbasedef
    have hbase : (0 : ℚ) ≤ base := by
      have hm := mul_nonneg hr (le_max_left (0 : ℚ) (now - now))
      rw [hbasedef]
      linarith
    by_cases hadm : min ((rl.burst : ℤ) : ℚ) base ≥ cost
    · rw [if_pos hadm]
      refine bucketsInv_insert rl _ key _ h1 ⟨?_, ?_⟩ <;> dsimp only
      · linarith
      · have hmin := min_le_left ((rl.burst : ℤ) : ℚ) base
        linarith
    · rw [if_neg hadm]
      refine bucketsInv_insert rl _ key _ h1 ⟨?_, ?_⟩ <;> dsimp only
      · exact le_min hbq hbase
      · exact min_le_left _ _
  · simp only [hlk]
    obtain ⟨q, hq, hq2⟩ := alLookup_mem key p _ hlk
    have hp1 : 0 ≤ p.1 := by
      have hqi := h1 q hq
      rw [hq2] at hqi
      exact hqi.1
    set base := p.1 + rl.rate * max 0 (now - p.2) with hbasedef
    have hbase : (0 : ℚ) ≤ base := by
      have hm := mul_nonneg hr (le_max_left (0 : ℚ) (now - p.2))
      rw [hbasedef]
      linarith
    by_cases hadm : min ((rl.burst : ℤ) : ℚ) base ≥ cost
    · rw [if_pos hadm]
      refine bucketsInv_insert rl _ key _ h1 ⟨?_, ?_⟩ <;> dsimp only
      · linarith
      · have hmin := min_le_left ((rl.burst : ℤ) : ℚ) base
        linarith
    · rw [if_neg hadm]
      refine bucketsInv_insert rl _ key _ h1 ⟨?_, ?_⟩ <;> dsimp only
      · exact le_min hbq hbase
      · exact min_le_left _ _

theorem allowTrace_inv (rl : RateLimiter) (hb : 1 ≤ rl.burst) (hr : 0 ≤ rl.rate) :
    ∀ (calls : List (List Char × ℚ)) (st : RLState), bucketsInv rl st →
      bucketsInv rl (allowTrace rl st calls).1 := by
  intro calls
  induction calls with
  | nil => intro st h; exact h
  | cons kn rest ih =>
    intro st h
    unfold allowTrace
    exact ih _ (allow_inv rl hb hr 1 (by norm_num) kn.1 kn.2 st h)

/-- allow on a key with no bucket (and no cleanup due): the bucket is
created at (burst, now), the refill leaves exactly burst tokens, and the
call admits iff burst covers the cost. -/
theorem allow_fresh (rl : RateLimiter) (cost : ℚ) (key : List Char) (now : ℚ)
    (st : RLState) (hcl : now - st.lastCleanup < 60)
    (hlk : alLookup key st.buckets = none) :
    allow rl cost key now st =
      (decide (cost ≤ ((rl.burst : ℤ) : ℚ)),
        { st with buckets := (alInsert key
            (if cost ≤ ((rl.burst : ℤ) : ℚ) then ((rl.burst : ℤ) : ℚ) - cost
              else ((rl.burst : ℤ) : ℚ), now) st.buckets) }) := by
  have hcl' : rlCleanup rl now st = st := by
    unfold rlCleanup
    rw [if_pos hcl]
  have htok : min ((rl.burst : ℤ) : ℚ) (((rl.burst : ℤ) : ℚ) + rl.rate * max 0 (now - now))
      = ((rl.burst : ℤ) : ℚ) := by
    rw [sub_self, max_self, mul_zero, add_zero, min_self]
  unfold allow
  rw [hcl']
  dsimp only
  rw [hlk]
  dsimp only
  rw [htok]
  by_cases hadm : cost ≤ ((rl.burst : ℤ) : ℚ)
  · rw [if_pos hadm, if_pos hadm, decide_eq_true hadm]
  · rw [if_neg hadm, if_neg hadm, decide_eq_false hadm]

/-- allow on a key whose bucket holds (tk, last) (and no cleanup due):
classic token-bucket refill tok = min(burst, tk + rate * elapsed), admit
and debit iff tok covers the cost, rewrite the bucket with last = now. -/
theorem allow_step (rl : RateLimiter) (cost : ℚ) (key : List Char)
    (now tk last : ℚ) (st : RLState) (hcl : now - st.lastCleanup < 60)
    (hlk : alLookup key st.buckets = some (tk, last)) :
    allow rl cost key now st =
      (decide (cost ≤ min ((rl.burst : ℤ) : ℚ) (tk + rl.rate * max 0 (now - last))),
        { st with buckets := (alInsert key
            (if cost ≤ min ((rl.burst : ℤ) : ℚ) (tk + rl.rate * max 0 (now - last))
              then min ((rl.burst : ℤ) : ℚ) (tk + rl.rate * max 0 (now - last)) - cost
              else min ((rl.burst : ℤ) : ℚ) (tk + rl.rate * max 0 (now - last)), now)
            st.buckets) }) := by
  have hcl' : rlCleanup rl now st = st := by
    unfold rlCleanup
    rw [if_pos hcl]
  unfold allow
  rw [hcl']
  dsimp only
  rw [hlk]
  dsimp only
  by_cases hadm : cost ≤ min ((rl.burst : ℤ) : ℚ) (tk + rl.rate * max 0 (now - last))
  · rw [if_pos hadm, if_pos hadm, decide_eq_true hadm]
  · rw [if_neg hadm, if_neg hadm, decide_eq_false hadm]

/-- The spec scenario limiter: rate 1/s, burst 5 (ttl 300 s). -/
def rl5 : RateLimiter := RateLimiter.make 1 5 300

/-- Bucket states reached by the spec scenario for a fresh key k:
five admissions at time 0 leave (0, 0). -/
def rlS1 (k : List Char) : RLState :=
  { rlInit with buckets := alInsert k ((4 : ℚ), (0 : ℚ)) rlInit.buckets }

def rlS2 (k : List Char) : RLState :=
  { rlS1 k with buckets := alInsert k ((3 : ℚ), (0 : ℚ)) (rlS1 k).buckets }

def rlS3 (k : List Char) : RLState :=
  { rlS2 k with buckets := alInsert k ((2 : ℚ), (0 : ℚ)) (rlS2 k).buckets }

def rlS4 (k : List Char) : RLState :=
  { rlS3 k with buckets := alInsert k ((1 : ℚ), (0 : ℚ)) (rlS3 k).buckets }

def rlS5 (k : List Char) : RLState :=
  { rlS4 k with buckets := alInsert k ((0 : ℚ), (0 : ℚ)) (rlS4 k).buckets }

def rlS6 (k : List Char) : RLState :=
  { rlS5 k with buckets := alInsert k ((0 : ℚ), (0 : ℚ)) (rlS5 k).buckets }

def rlS7 (k : List Char) (w : ℚ) : RLState :=
  { rlS6 k with buckets := alInsert k (w - 1, w) (rlS6 k).buckets }

/-- The spec scenario: burst 5, rate 1/s; for a fresh key, five immediate
calls succeed, a sixth immediate call fails, one more call after waiting
w seconds (1 ≤ w < 2) succeeds, and a further call at that same instant
fails. -/
theorem rl5_scenario (k : List Char) (w : ℚ) (hw1 : 1 ≤ w) (hw2 : w < 2) :
    (allowTrace rl5 rlInit
        [(k, 0), (k, 0), (k, 0), (k, 0), (k, 0), (k, 0), (k, w), (k, w)]).2 =
      [true, true, true, true, true, false, true, false] := by
  have hburst : ((rl5.burst : ℤ) : ℚ) = 5 := by norm_num [rl5, RateLimiter.make]
  have hrate : rl5.rate = 1 := by norm_num [rl5, RateLimiter.make]
  have a1 : allow rl5 1 k 0 rlInit = (true, rlS1 k) := by
    rw [allow_fresh rl5 1 k 0 rlInit (by norm_num [rlInit]) rfl, hburst]
    norm_num [rlS1, rlInit]
  have a2 : allow rl5 1 k 0 (rlS1 k) = (true, rlS2 k) := by
    rw [allow_step rl5 1 k 0 4 0 (rlS1 k)
      (show (0 : ℚ) - (0 : ℚ) < 60 by norm_num)
      (alLookup_alInsert_self k ((4 : ℚ), (0 : ℚ)) rlInit.buckets), hburst, hrate]
    norm_num [rlS2, min_def, max_def]
  have a3 : allow rl5 1 k 0 (rlS2 k) = (true, rlS3 k) := by
    rw [allow_step rl5 1 k 0 3 0 (rlS2 k)
      (show (0 : ℚ) - (0 : ℚ) < 60 by norm_num)
      (alLookup_alInsert_self k ((3 : ℚ), (0 : ℚ)) (rlS1 k).buckets), hburst, hrate]
    norm_num [rlS3, min_def, max_def]
  have a4 : allow rl5 1 k 0 (rlS3 k) = (true, rlS4 k) := by
    rw [allow_step rl5 1 k 0 2 0 (rlS3 k)
      (show (0 : ℚ) - (0 : ℚ) < 60 by norm_num)
      (alLookup_alInsert_self k ((2 : ℚ), (0 : ℚ)) (rlS2 k).buckets), hburst, hrate]
    norm_num [rlS4, min_def, max_def]
  have a5 : allow rl5 1 k 0 (rlS4 k) = (true, rlS5 k) := by
    rw [allow_step rl5 1 k 0 1 0 (rlS4 k)
      (show (0 : ℚ) - (0 : ℚ) < 60 by norm_num)
      (alLookup_alInsert_self k ((1 : ℚ), (0 : ℚ)) (rlS3 k).buckets), hburst, hrate]
    norm_num [rlS5, min_def, max_def]
  have a6 : allow rl5 1 k 0 (rlS5 k) = (false, rlS6 k) := by
    rw [allow_step rl5 1 k 0 0 0 (rlS5 k)
      (show (0 : ℚ) - (0 : ℚ) < 60 by norm_num)
      (alLookup_alInsert_self k ((0 : ℚ), (0 : ℚ)) (rlS4 k).buckets), hburst, hrate]
    norm_num [rlS6, min_def, max_def]
  have a7 : allow rl5 1 k w (rlS6 k) = (true, rlS7 k w) := by
    rw [allow_step rl5 1 k w 0 0 (rlS6 k)
      (show w - (0 : ℚ) < 60 by linarith)
      (alLookup_alInsert_self k ((0 : ℚ), (0 : ℚ)) (rlS5 k).buckets), hburst, hrate]
    have e1 : max (0 : ℚ) (w - 0) = w := by
      rw [sub_zero]
      exact max_eq_right (by linarith)
    rw [e1]
    have e2 : min (5 : ℚ) (0 + 1 * w) = w := by
      rw [zero_add, one_mul]
      exact min_eq_right (by linarith)
    rw [e2, decide_eq_true hw1, if_pos hw1]
    rw [rlS7]
  have a8 : allow rl5 1 k w (rlS7 k w) =
      (false, { rlS7 k w with
        buckets := alInsert k (w - 1, w) (rlS7 k w).buckets }) := by
    rw [allow_step rl5 1 k w (w - 1) w (rlS7 k w)
      (show w - (0 : ℚ) < 60 by linarith)
      (alLookup_alInsert_self k (w - 1, w) (rlS6 k).buckets), hburst, hrate]
    have e3 : max (0 : ℚ) (w - w) = 0 := by
      rw [sub_self, max_self]
    rw [e3]
    have e4 : min (5 : ℚ) (w - 1 + 1 * 0) = w - 1 := by
      rw [mul_zero, add_zero]
      exact min_eq_right (by linarith)
    rw [e4]
    have hno : ¬ (1 : ℚ) ≤ w - 1 := by linarith
    rw [decide_eq_false hno, if_neg hno]
  simp only [allowTrace, a1, a2, a3, a4, a5, a6, a7, a8]

/-- C9: allow refills an existing bucket to min(burst, tokens + rate *
elapsed) and admits (debiting the cost) exactly when the refilled count
covers it, rewriting the bucket with last = now; every bucket ever stored
satisfies 0 ≤ tokens ≤ burst; and with burst 5, rate 1/s, a fresh key
admits five immediate calls, rejects a sixth immediate call, admits one
more after waiting w seconds with 1 ≤ w < 2, and rejects a further call
at that same instant. -/
theorem rate_limiter_correct (rl : RateLimiter) (cost tk last now w : ℚ)
    (key : List Char) (st : RLState)
    (hb : 1 ≤ rl.burst) (hr : 0 ≤ rl.rate)
    (hcl : now - st.lastCleanup < 60)
    (hlk : alLookup key st.buckets = some (tk, last))
    (hw1 : 1 ≤ w) (hw2 : w < 2) :
    (allow rl cost key now st =
      (decide (cost ≤ min ((rl.burst : ℤ) : ℚ) (tk + rl.rate * max 0 (now - last))),
        { st with buckets := (alInsert key
            (if cost ≤ min ((rl.burst : ℤ) : ℚ) (tk + rl.rate * max 0 (now - last))
              then min ((rl.burst : ℤ) : ℚ) (tk + rl.rate * max 0 (now - last)) - cost
              else min ((rl.burst : ℤ) : ℚ) (tk + rl.rate * max 0 (now - last)), now)
            st.buckets) })) ∧
    (∀ calls : List (List Char × ℚ),
      ∀ kv ∈ ((allowTrace rl rlInit calls).1).buckets,
        0 ≤ kv.2.1 ∧ kv.2.1 ≤ ((rl.burst : ℤ) : ℚ)) ∧
    ((allowTrace rl5 rlInit
        [(key, 0), (key, 0), (key, 0), (key, 0), (key, 0), (key, 0), (key, w), (key, w)]).2 =
      [true, true, true, true, true, false, true, false]) := by
  refine ⟨allow_step rl cost key now tk last st hcl hlk, ?_, rl5_scenario key w hw1 hw2⟩
  intro calls
  exact allowTrace_inv rl hb hr calls rlInit
    (fun kv hkv => absurd hkv (List.not_mem_nil kv))

/-- Witness for C9 at burst 5, rate 1/s, a bucket holding (3, 0), time 0
and wait w = 1. -/
theorem rate_limiter_correct_witness :
    (1 ≤ rl5.burst ∧ 0 ≤ rl5.rate ∧
      (0 : ℚ) - (RLState.mk [('k' :: [], ((3 : ℚ), (0 : ℚ)))] 0).lastCleanup < 60 ∧
      alLookup ('k' :: []) (RLState.mk [('k' :: [], ((3 : ℚ), (0 : ℚ)))] 0).buckets =
        some ((3 : ℚ), (0 : ℚ)) ∧
      (1 : ℚ) ≤ 1 ∧ (1 : ℚ) < 2) ∧
    ((allow rl5 1 ('k' :: []) 0 (RLState.mk [('k' :: [], ((3 : ℚ), (0 : ℚ)))] 0) =
      (decide ((1 : ℚ) ≤ min ((rl5.burst : ℤ) : ℚ) (3 + rl5.rate * max 0 ((0 : ℚ) - 0))),
        { RLState.mk [('k' :: [], ((3 : ℚ), (0 : ℚ)))] 0 with buckets := (alInsert ('k' :: [])
            (if (1 : ℚ) ≤ min ((rl5.burst : ℤ) : ℚ) (3 + rl5.rate * max 0 ((0 : ℚ) - 0))
              then min ((rl5.burst : ℤ) : ℚ) (3 + rl5.rate * max 0 ((0 : ℚ) - 0)) - 1
              else min ((rl5.burst : ℤ) : ℚ) (3 + rl5.rate * max 0 ((0 : ℚ) - 0)), (0 : ℚ))
            (RLState.mk [('k' :: [], ((3 : ℚ), (0 : ℚ)))] 0).buckets) })) ∧
    (∀ calls : List (List Char × ℚ),
      ∀ kv ∈ ((allowTrace rl5 rlInit calls).1).buckets,
        0 ≤ kv.2.1 ∧ kv.2.1 ≤ ((rl5.burst : ℤ) : ℚ)) ∧
    ((allowTrace rl5 rlInit
        [('k' :: [], 0), ('k' :: [], 0), ('k' :: [], 0), ('k' :: [], 0), ('k' :: [], 0),
          ('k' :: [], 0), ('k' :: [], 1), ('k' :: [], 1)]).2 =
      [true, true, true, true, true, false, true, false])) := by
  have hb : 1 ≤ rl5.burst := by norm_num [rl5, RateLimiter.make]
  have hr : 0 ≤ rl5.rate := by norm_num [rl5, RateLimiter.make]
  have hcl : (0 : ℚ) - (RLState.mk [('k' :: [], ((3 : ℚ), (0 : ℚ)))] 0).lastCleanup < 60 := by
    norm_num
  have hlk : alLookup ('k' :: []) (RLState.mk [('k' :: [], ((3 : ℚ), (0 : ℚ)))] 0).buckets =
      some ((3 : ℚ), (0 : ℚ)) := by
    simp [alLookup]
  exact ⟨⟨hb, hr, hcl, hlk, le_rfl, by norm_num⟩,
    rate_limiter_correct rl5 1 3 0 0 1 ('k' :: [])
      (RLState.mk [('k' :: [], ((3 : ℚ), (0 : ℚ)))] 0) hb hr hcl hlk le_rfl (by norm_num)⟩

end PBX
